import Mathlib

/-!
# A verification development for the furl URL library

This file shallowly embeds the Python source of the furl library
(src/furl: core.py, path.py, query.py, fragment.py, helpers.py,
stringlike.py) into Lean 4 and proves and refutes the frozen claims about
it.  Python 2 byte strings are modelled as lists of characters (`Str`);
Python `None` for an optional string is `Option.none`; an exception is an
`Except` error value.  The standard-library collaborators the source calls
(`urlparse.urlsplit`, `urlparse.urlunsplit`, `urllib.quote`,
`urllib.unquote`, `urllib.quote_plus`, `urlparse.parse_qsl`) are embedded
faithfully from their Python 2.7 behaviour, since the source's semantics
depends on them.
-/

deriving instance DecidableEq for Except

namespace Furl

/-- Python 2 byte strings, modelled as lists of characters. -/
abbrev Str := List Char

/-- `str.lower()` on a byte: only ASCII A-Z are lowercased. -/
def charLower (c : Char) : Char :=
  if 'A' ≤ c ∧ c ≤ 'Z' then Char.ofNat (c.toNat + 32) else c

/-- `str.lower()` on a byte string. -/
def lowerS (s : Str) : Str := s.map charLower

/-- A decimal digit byte, '0'-'9' (what Python 2 `str.isdigit` accepts). -/
def isDig (c : Char) : Bool := '0' ≤ c ∧ c ≤ '9'

/-- `int(s)` for a string of decimal digits. -/
def strToNat (s : Str) : Nat := s.foldl (fun a c => 10 * a + (c.toNat - 48)) 0

/-- `str(n)` for a non-negative integer. -/
def natToStr (n : Nat) : Str := (Nat.repr n).toList

/-- Python `s.split(sep)` for a one-character separator: always returns at
least one part, and `''.split(sep) == ['']`. -/
def splitC (sep : Char) : Str → List Str
  | [] => [[]]
  | a :: rest =>
    if a = sep then [] :: splitC sep rest
    else
      match splitC sep rest with
      | [] => [[a]]
      | h :: t => (a :: h) :: t

/-- Python `sep.join(parts)` for a one-character separator. -/
def joinC (sep : Char) : List Str → Str
  | [] => []
  | [x] => x
  | x :: xs => x ++ sep :: joinC sep xs

/-- Python `sep.join(parts)` for a string separator. -/
def joinS (sep : Str) : List Str → Str
  | [] => []
  | [x] => x
  | x :: xs => x ++ sep ++ joinS sep xs

/-- Python `s.find(c)`: index of the first occurrence, or none. -/
def findIdxC (c : Char) (s : Str) : Option Nat := s.findIdx? (· = c)

/-- Python `s.rfind(c)`: index of the last occurrence, or none. -/
def rfindIdxC (c : Char) (s : Str) : Option Nat :=
  match findIdxC c s.reverse with
  | none => none
  | some i => some (s.length - 1 - i)

/-- Python `s.split(c, 1)`: the parts before and after the first
occurrence, or none when `c` does not occur. -/
def splitFirst (c : Char) (s : Str) : Option (Str × Str) :=
  match findIdxC c s with
  | none => none
  | some i => some (s.take i, s.drop (i + 1))

/-- Python `s.rsplit(c, 1)`: the parts before and after the last
occurrence, or none when `c` does not occur. -/
def rsplitLast (c : Char) (s : Str) : Option (Str × Str) :=
  match rfindIdxC c s with
  | none => none
  | some i => some (s.take i, s.drop (i + 1))

/-- Python `s.startswith(p)`. -/
def startsW (p s : Str) : Bool := s.take p.length = p

/-- Python `p in s` for a substring `p`. -/
def containsSub (p : Str) : Str → Bool
  | [] => p.isEmpty
  | c :: rest => startsW p (c :: rest) || containsSub p rest

/-- Python `s.replace('%3F', '?')`: left-to-right, non-overlapping
replacement of every occurrence (used by `Fragment.__str__`). -/
def replQm : Str → Str
  | '%' :: '3' :: 'F' :: rest => '?' :: replQm rest
  | c :: rest => c :: replQm rest
  | [] => []

/-- Python `s.replace('+', ' ')` (used by `parse_qsl`). -/
def plusToSpace (s : Str) : Str := s.map fun c => if c = '+' then ' ' else c

/-- Python `s.replace(' ', '+')` (used by `quote_plus`). -/
def spaceToPlus (s : Str) : Str := s.map fun c => if c = ' ' then '+' else c

/-! ## Percent codec (`urllib.quote`, `urllib.unquote`, `urllib.quote_plus`) -/

/-- A hexadecimal digit byte (either case), as accepted by Python 2
`urllib.unquote`'s `_hextochr` table. -/
def isHexD (c : Char) : Bool :=
  ('0' ≤ c ∧ c ≤ '9') ∨ ('a' ≤ c ∧ c ≤ 'f') ∨ ('A' ≤ c ∧ c ≤ 'F')

/-- The value of a hexadecimal digit byte. -/
def hexVal (c : Char) : Nat :=
  if '0' ≤ c ∧ c ≤ '9' then c.toNat - 48
  else if 'a' ≤ c ∧ c ≤ 'f' then c.toNat - 87
  else c.toNat - 55

/-- The upper-case hexadecimal digit for a value below 16 (Python formats
escapes with `'%%%02X'`). -/
def hexDigU (n : Nat) : Char :=
  if n < 10 then Char.ofNat (48 + n) else Char.ofNat (55 + n)

/-- `urllib.unquote(s)`: decode every `%XX` escape; an invalid escape
passes through literally. -/
def unquote : Str → Str
  | '%' :: a :: b :: rest =>
    if isHexD a ∧ isHexD b then Char.ofNat (16 * hexVal a + hexVal b) :: unquote rest
    else '%' :: unquote (a :: b :: rest)
  | c :: rest => c :: unquote rest
  | [] => []

/-- The characters `urllib.quote` never encodes
(`always_safe`: letters, digits and `_.-`). -/
def alwaysSafe (c : Char) : Bool := c.isAlpha ∨ c.isDigit ∨ c = '_' ∨ c = '.' ∨ c = '-'

/-- `urllib.quote` of one byte with the extra safe set `safe`. -/
def quoteChar (safe : List Char) (c : Char) : Str :=
  if alwaysSafe c ∨ c ∈ safe then [c]
  else ['%', hexDigU (c.toNat / 16), hexDigU (c.toNat % 16)]

/-- `urllib.quote(s, safe)`. -/
def quote (safe : List Char) (s : Str) : Str :=
  s.foldr (fun c acc => quoteChar safe c ++ acc) []

/-- `urllib.quote_plus(s, safe)`: when `s` contains a space, quote with the
space made safe and then turn every space into `+`. -/
def quotePlus (safe : List Char) (s : Str) : Str :=
  if ' ' ∈ s then spaceToPlus (quote (safe ++ [' ']) s) else quote safe s

/-- The query unescaping `parse_qsl` applies to each raw key and value:
`urllib.unquote(s.replace('+', ' '))`. -/
def uqPlus (s : Str) : Str := unquote (plusToSpace s)

/-! ## helpers.py -/

/-- One iteration of the loop in `join_path_segments`: skip an empty or
`['']` argument, extend empty `finals` wholesale, and otherwise merge one
slash at the border. -/
def joinStep (finals segments : List Str) : List Str :=
  if segments = [] ∨ segments = [[]] then finals
  else if finals = [] then segments
  else if finals.getLast? = some [] ∧ (segments.head? ≠ some [] ∨ segments.length > 1) then
    finals.dropLast ++ segments
  else if finals.getLast? ≠ some [] ∧ segments.head? = some [] ∧ segments.length > 1 then
    finals ++ segments.tail
  else finals ++ segments

/-- `join_path_segments(*args)` from helpers.py: fold the argument lists
into `finals` with `joinStep`. -/
def join_path_segments (args : List (List Str)) : List Str :=
  args.foldl joinStep []

/-- The comparison copy `toremove` inside `remove_path_segments`: a
multi-element remove list loses a leading empty element. -/
def removeCmp (rem : List Str) : List Str :=
  if 1 < rem.length ∧ rem.head? = some [] then rem.tail else rem

/-- The body of `remove_path_segments` after its two operands have been
treated (`['']` becomes `['', '']`). -/
def removeTreated (segs rem : List Str) : List Str :=
  if rem = segs then []
  else if rem.length > segs.length then segs
  else if removeCmp rem ≠ [] ∧ removeCmp rem = segs.drop (segs.length - (removeCmp rem).length) then
    if rem.head? ≠ some [] ∧ segs.take (segs.length - (removeCmp rem).length) ≠ [] then
      segs.take (segs.length - (removeCmp rem).length) ++ [[]]
    else segs.take (segs.length - (removeCmp rem).length)
  else segs

/-- `remove_path_segments(segments, remove)` from helpers.py.  The Python
code mutates a `['']` operand into `['', '']` in place and then works with
the mutated lists; this pure version works on the treated values. -/
def remove_path_segments (segments remove : List Str) : List Str :=
  removeTreated (if segments = [[]] then [[], []] else segments)
    (if remove = [[]] then [[], []] else remove)

/-- `is_valid_port(port)` from helpers.py, on the string form of the
port: all-digit, non-zero, and at most 65535.  (Python 2 `''.isdigit()`
is false, so the empty string is invalid.) -/
def is_valid_port (port : Str) : Bool :=
  ¬ (port = [] ∨ port.any (fun c => ¬ isDig c) ∨ strToNat port = 0 ∨ strToNat port > 65535)

/-! ## The urlparse collaborator (Python 2.7 `urlsplit` / `urlunsplit`)
and furl's helpers.py wrapper around it. -/

/-- The exceptions the embedded code can raise. -/
inductive Err where
  | valueError
  | typeError
  | attributeError
deriving DecidableEq, Repr

/-- The result tuple of `urlparse.urlsplit`. -/
structure SplitRes where
  scheme : Str
  netloc : Str
  path : Str
  query : Str
  fragment : Str
deriving DecidableEq, Repr

/-- `urlparse.scheme_chars`. -/
def schemeChars (c : Char) : Bool :=
  c.isAlpha ∨ c.isDigit ∨ c = '+' ∨ c = '-' ∨ c = '.'

/-- `urlparse.uses_query` (Python 2.7): schemes whose query part
`urlsplit` separates. -/
def usesQuery : List Str :=
  ["http", "wais", "imap", "https", "shttp", "mms", "gopher", "rtsp", "rtspu",
   "sip", "sips", "", "snews", "tel", "fax", "modem"].map String.toList

/-- `urlparse.uses_fragment` (Python 2.7): schemes whose fragment part
`urlsplit` separates. -/
def usesFragment : List Str :=
  ["ftp", "hdl", "http", "gopher", "news", "nntp", "wais", "https", "shttp",
   "snews", "file", "prospero", ""].map String.toList

/-- The mismatched-bracket test `urlsplit` applies to a netloc
(`'[' in netloc` xor `']' in netloc` raises "Invalid IPv6 URL"). -/
def bracketsBad (nl : Str) : Bool := ('[' ∈ nl) ≠ (']' ∈ nl)

/-- `urlparse._splitnetloc(url, 2)` with the leading `'//'` already
dropped from `url`: the netloc runs up to the first `/`, `?` or `#`. -/
def splitnetloc (rest : Str) : Str × Str :=
  match rest.findIdx? (fun c => c = '/' ∨ c = '?' ∨ c = '#') with
  | none => (rest, [])
  | some i => (rest.take i, rest.drop i)

/-- `s.split(c, 1)` in the shape `urlsplit` uses it: the input is returned
whole when `c` does not occur. -/
def splitFirstD (c : Char) (s : Str) : Str × Str :=
  match splitFirst c s with
  | none => (s, [])
  | some p => p

/-- The tail of `urlsplit` shared by its slow paths: split off the netloc
after a leading `'//'`, then the fragment and query when the scheme is in
the `uses_fragment` / `uses_query` lists. -/
def genericSplit (scheme url : Str) : Except Err SplitRes :=
  let (netloc, url) := if startsW ['/', '/'] url then splitnetloc (url.drop 2) else ([], url)
  if bracketsBad netloc then .error .valueError
  else
    let (url, fragment) := if scheme ∈ usesFragment ∧ '#' ∈ url then splitFirstD '#' url else (url, [])
    let (url, query) := if scheme ∈ usesQuery ∧ '?' ∈ url then splitFirstD '?' url else (url, [])
    .ok ⟨scheme, netloc, url, query, fragment⟩

/-- `urlparse.urlsplit(url)` (Python 2.7, `allow_fragments=True`,
default scheme `''`), including the `'http'` fast path, the
all-scheme-characters check and the trailing-port-number heuristic. -/
def pyUrlsplit (u : Str) : Except Err SplitRes :=
  match findIdxC ':' u with
  | some i =>
    if i > 0 then
      if u.take i = "http".toList then
        let rest := u.drop (i + 1)
        let (netloc, rest) :=
          if startsW ['/', '/'] rest then splitnetloc (rest.drop 2) else ([], rest)
        if bracketsBad netloc then .error .valueError
        else
          let (rest, fragment) := if '#' ∈ rest then splitFirstD '#' rest else (rest, [])
          let (rest, query) := if '?' ∈ rest then splitFirstD '?' rest else (rest, [])
          .ok ⟨"http".toList, netloc, rest, query, fragment⟩
      else if (u.take i).all schemeChars ∧
          (u.drop (i + 1) = [] ∨ ¬ (u.drop (i + 1)).all isDig) then
        genericSplit (lowerS (u.take i)) (u.drop (i + 1))
      else genericSplit [] u
    else genericSplit [] u
  | none => genericSplit [] u

/-- `_get_scheme(url)` from helpers.py: everything before the first `:`
when that colon is not the first character, else `''`. -/
def hGetScheme (u : Str) : Str :=
  match findIdxC ':' u with
  | some i => if i > 0 then u.take i else []
  | none => []

/-- `_set_scheme(url, newscheme)` from helpers.py. -/
def hSetScheme (u newscheme : Str) : Str :=
  let scheme := hGetScheme u
  if scheme ≠ [] then newscheme ++ u.drop scheme.length else u

/-- `urlsplit(url)` from helpers.py: when the URL has a `'://'`, split it
with the scheme swapped to `http` (so the query and fragment are separated
for every scheme) and restore the original scheme in the result. -/
def urlsplit (u : Str) : Except Err SplitRes :=
  if ¬ containsSub "://".toList u then pyUrlsplit u
  else
    let origScheme := hGetScheme u
    match pyUrlsplit (hSetScheme u "http".toList) with
    | .error e => .error e
    | .ok r => .ok { r with scheme := origScheme }

/-- `urlparse.urlunsplit((scheme, netloc, path, query, fragment))`
(Python 2.7), with `scheme` and `netloc` possibly `None` as furl passes
them. -/
def urlunsplit (scheme netloc : Option Str) (path query fragment : Str) : Str :=
  let nlTruthy := match netloc with | some s => s ≠ [] | none => false
  let url :=
    if nlTruthy || (!path.isEmpty && startsW ['/', '/'] path) then
      let p := if path ≠ [] ∧ path.head? ≠ some '/' then '/' :: path else path
      ['/', '/'] ++ netloc.getD [] ++ p
    else path
  let url := match scheme with
    | some s => if s ≠ [] then s ++ ':' :: url else url
    | none => url
  let url := if query ≠ [] then url ++ '?' :: query else url
  if fragment ≠ [] then url ++ '#' :: fragment else url

/-! ## path.py -/

/-- `Path.SAFE_SEGMENT_CHARS`, the characters kept literal when a path
segment is quoted (the string `:@-._~!$&`, an apostrophe, `()*+,;=`). -/
def SAFE_SEGMENT_CHARS : List Char :=
  [':', '@', '-', '.', '_', '~', '!', '$', '&', Char.ofNat 39,
   '(', ')', '*', '+', ',', ';', '=']

/-- The state of a `Path` object: its decoded segments and the stored
`_isabsolute` flag (`_force_absolute` is a property of the owner and is
modelled at each use site). -/
structure PathSt where
  segments : List Str
  isabs : Bool
deriving DecidableEq, Repr

/-- `Path._path_from_segments(segments, quoted=True)`: when the decoded
segments hold no `%`, quote each one with the path-safe set; otherwise
join the decoded segments unchanged. -/
def path_from_segments (segments : List Str) : Str :=
  if '%' ∈ segments.flatten then joinC '/' segments
  else joinC '/' (segments.map (quote SAFE_SEGMENT_CHARS))

/-- `Path._segments_from_path(path)` with `strict=False`: split on `/`
and percent-decode each token. -/
def segments_from_path (p : Str) : List Str := (splitC '/' p).map unquote

/-- `Path.load(path)` for a string on a freshly constructed `Path` (the
prior segment list is empty, so `_force_absolute(self)` is false during
the load and the branch on the string form decides `_isabsolute`).  Note
the segments are percent-decoded a second time by `load` after
`_segments_from_path` already decoded them once. -/
def pathLoadFresh (p : Str) : PathSt :=
  if p = [] then ⟨[], false⟩
  else
    let segments := segments_from_path p
    let isab := segments.head? = some []
    let segments := if isab ∧ segments.length > 1 then segments.tail else segments
    ⟨segments.map unquote, isab⟩

/-- `Path.__str__` given the value of the `isabsolute` property: prepend
an empty segment when absolute (an absolute empty path renders as `/`),
then `_path_from_segments`. -/
def pathStr (isabsolute : Bool) (segments : List Str) : Str :=
  if isabsolute then
    if segments = [] then path_from_segments [[], []]
    else path_from_segments ([] :: segments)
  else path_from_segments segments

/-! ## query.py -/

/-- `Query.SAFE_KEY_CHARS` (`/?:@-._~!$`, an apostrophe, `()*,`). -/
def SAFE_KEY_CHARS : List Char :=
  ['/', '?', ':', '@', '-', '.', '_', '~', '!', '$', Char.ofNat 39,
   '(', ')', '*', ',']

/-- `Query.SAFE_VALUE_CHARS` (the key-safe set plus `=`). -/
def SAFE_VALUE_CHARS : List Char :=
  ['/', '?', ':', '@', '-', '.', '_', '~', '!', '$', Char.ofNat 39,
   '(', ')', '*', ',', '=']

/-- `urlparse.parse_qsl(qs, keep_blank_values=True)` (Python 2.7): split
the string on `&` and `;`, drop empty pairs, split each pair on its first
`=` (a pair without one gets an empty value), and unescape each side with
`+`-as-space unquoting. -/
def parse_qsl (qs : Str) : List (Str × Str) :=
  let pairs := ((splitC '&' qs).map (splitC ';')).flatten
  (pairs.filter (fun nv => nv ≠ [])).map fun nv =>
    match splitFirst '=' nv with
    | some (k, v) => (uqPlus k, uqPlus v)
    | none => (uqPlus nv, [])

/-- A stored query parameter value: a string, or Python `None`. -/
abbrev QVal := Option Str

/-- The state of `Query.params`: the ordered multivalue dictionary is
modelled (from the spec, its module is not under src/) as the ordered
list of key/value pairs; `load` replaces the list and iteration yields
the pairs in insertion order. -/
abbrev QuerySt := List (Str × QVal)

/-- `Query.load(query)` for an encoded query string. -/
def queryLoadStr (q : Str) : QuerySt := (parse_qsl q).map fun p => (p.1, some p.2)

/-- Python `str(value)` for a stored query value: `None` renders as the
four characters `None`. -/
def pyStrV (v : QVal) : Str :=
  match v with
  | some s => s
  | none => "None".toList

/-- The rendering of one key/value pair inside `Query.encode`:
`'='.join((quote_plus(str(key), SAFE_KEY_CHARS), quote_plus(str(value),
SAFE_VALUE_CHARS)))`. -/
def encodePair (kv : Str × QVal) : Str :=
  quotePlus SAFE_KEY_CHARS kv.1 ++ '=' :: quotePlus SAFE_VALUE_CHARS (pyStrV kv.2)

/-- `Query.encode(delimeter)`: render every pair in order and join with
the delimiter. -/
def queryEncode (delim : Str) (params : QuerySt) : Str :=
  joinS delim (params.map encodePair)

/-- `Query.__str__` (`encode()` with the default delimiter `&`). -/
def queryStr (params : QuerySt) : Str := queryEncode ['&'] params

/-! ## fragment.py -/

/-- The state of a `Fragment`: a path (never force-absolute), a query and
the separator flag. -/
structure FragSt where
  path : PathSt
  query : QuerySt
  separator : Bool
deriving DecidableEq, Repr

/-- `Fragment.load(fragment)` on a fragment whose path and query are
reloaded from scratch: split on the first `?` and apply the
path-versus-query heuristic. -/
def fragLoad (separator : Bool) (f : Str) : FragSt :=
  match splitFirst '?' f with
  | none =>
    if '=' ∈ f then ⟨pathLoadFresh [], queryLoadStr f, separator⟩
    else ⟨pathLoadFresh f, queryLoadStr [], separator⟩
  | some (a, b) =>
    if '=' ∈ b then ⟨pathLoadFresh a, queryLoadStr b, separator⟩
    else ⟨pathLoadFresh f, queryLoadStr [], separator⟩

/-- `Fragment.__str__`: render path and query; when there is no query (or
no separator) decode `%3F` back to `?` in the path; join with `?` only
when both parts are present and the separator flag is set. -/
def fragStr (fs : FragSt) : Str :=
  let p := pathStr fs.path.isabs fs.path.segments
  let q := queryStr fs.query
  let p := if p ≠ [] ∧ (q = [] ∨ ¬ fs.separator) then replQm p else p
  if q ≠ [] ∧ p ≠ [] then p ++ (if fs.separator then ['?'] else []) ++ q
  else p ++ q

/-! ## core.py -/

/-- `Furl.DEFAULT_PORTS`. -/
def DEFAULT_PORTS (scheme : Option Str) : Option Nat :=
  match scheme with
  | some s =>
    if s = "ftp".toList then some 21
    else if s = "ssh".toList then some 22
    else if s = "http".toList then some 80
    else if s = "https".toList then some 443
    else none
  | none => none

/-- The state of a `Furl` object.  `strict` is fixed to its default
`False` (it only controls advisory warnings and never changes state). -/
structure FurlState where
  username : Option Str
  password : Option Str
  scheme : Option Str
  host : Option Str
  port : Option Nat
  path : PathSt
  query : QuerySt
  fragment : FragSt
deriving DecidableEq, Repr

/-- The state of a freshly constructed `Furl` before `load` runs. -/
def freshState : FurlState :=
  ⟨none, none, none, none, none, ⟨[], false⟩, [], ⟨⟨[], false⟩, [], true⟩⟩

/-- The `Furl.port` setter on the string form of the assigned value
(`None` adopts the scheme's default port).  Raising leaves the object
unchanged, so an error carries no state. -/
def portSetStr (p : Option Str) (st : FurlState) : Except Err FurlState :=
  match p with
  | none => .ok { st with port := DEFAULT_PORTS st.scheme }
  | some s => if is_valid_port s then .ok { st with port := some (strToNat s) }
              else .error .valueError

/-- The `host[:port]` split inside the netloc setter, with its
IPv6-literal handling: a colon after the last `]` and not adjacent to it
is an error; a colon right after it introduces the port (without
lowercasing the host); otherwise a bracketed netloc is the whole
lowercased host. -/
def netlocHostPort (rest : Str) : Except Err (Str × Option Str) :=
  if ':' ∈ rest then
    if ']' ∈ rest then
      match rfindIdxC ':' rest, rfindIdxC ']' rest with
      | some colonpos, some bracketpos =>
        if colonpos > bracketpos ∧ colonpos ≠ bracketpos + 1 then .error .valueError
        else if colonpos > bracketpos ∧ colonpos = bracketpos + 1 then
          match rsplitLast ':' rest with
          | some (h, p) => .ok (h, some p)
          | none => .ok (rest, none)
        else .ok (lowerS rest, none)
      | _, _ => .ok (lowerS rest, none)
    else
      match rsplitLast ':' rest with
      | some (h, p) => .ok (lowerS h, some p)
      | none => .ok (lowerS rest, none)
  else .ok (lowerS rest, none)

/-- The `self.port = port` step inside the netloc setter: `None` adopts
the scheme's default, an invalid port string raises. -/
def netlocPortParse (scheme : Option Str) (portStr : Option Str) : Except Err (Option Nat) :=
  match portStr with
  | none => .ok (DEFAULT_PORTS scheme)
  | some ps => if is_valid_port ps then .ok (some (strToNat ps)) else .error .valueError

/-- The `user[:pass]@` split inside the netloc setter. -/
def netlocUserSplit (n0 : Str) : Option Str × Option Str × Str :=
  match splitFirst '@' n0 with
  | some (up, r) =>
    (match splitFirst ':' up with
     | some (u, pw) => (some u, some pw, r)
     | none => (some up, none, r))
  | none => (none, none, n0)

/-- The parse inside the `Furl.netloc` setter: from a netloc string to
`(username, password, host, port)`.  A `None` netloc reaches `'@' in
netloc` and raises `TypeError`; the mismatched-bracket check of
`urlparse.urlsplit('http://%s/' % netloc)` applies to the part of the
netloc before any `/`, `?` or `#`; the port is validated (against the
current scheme for the default) before any field is assigned.  The host
setter runs its own validation after the port assignment; that check is
applied by `netlocSetSt` below, not here. -/
def netlocParse (scheme : Option Str) (n : Option Str) :
    Except Err (Option Str × Option Str × Option Str × Option Nat) :=
  match n with
  | none => .error .typeError
  | some n0 =>
    if bracketsBad (n0.takeWhile fun c => ¬ (c = '/' ∨ c = '?' ∨ c = '#')) then
      .error .valueError
    else
      match netlocUserSplit n0 with
      | (username, password, rest) =>
        match netlocHostPort rest with
        | .error e => .error e
        | .ok (host, portStr) =>
          match netlocPortParse scheme portStr with
          | .error e => .error e
          | .ok prt =>
            .ok (if username = some [] then none else username,
                 if password = some [] then none else password,
                 if host = [] then none else some host,
                 prt)

/-- The validation the `Furl.host` setter runs before assigning:
`urlparse.urlsplit('http://%s/' % host)` raises `ValueError` on a
mismatched bracket in the part of the host before any `/`, `?` or `#`.
An empty parsed host is assigned as `None`, whose rendering `'None'`
contains no bracket, so the check passes. -/
def hostCheckBad (h : Option Str) : Bool :=
  match h with
  | none => false
  | some hs => bracketsBad (hs.takeWhile fun c => ¬ (c = '/' ∨ c = '?' ∨ c = '#'))

/-- The `Furl.netloc` setter as a statement-level step: the new state
and the raised exception, if any.  The port is assigned before the
host; when the host setter's own bracket validation then raises, the
port has already been mutated, so that error carries the
partially-updated state. -/
def netlocSetSt (n : Option Str) (st : FurlState) : FurlState × Option Err :=
  match netlocParse st.scheme n with
  | .error e => (st, some e)
  | .ok (u, pw, ho, prt) =>
    if hostCheckBad ho then ({ st with port := prt }, some .valueError)
    else ({ st with username := u, password := pw, host := ho, port := prt }, none)

/-- The `Furl.netloc` setter as an expression: the resulting state when
no exception is raised (`netlocSetSt` keeps the partially mutated state
when one is). -/
def netlocSet (n : Option Str) (st : FurlState) : Except Err FurlState :=
  match netlocSetSt n st with
  | (st2, none) => .ok st2
  | (_, some e) => .error e

/-- The `user[:pass]` part of the netloc getter. -/
def userpassRaw (st : FurlState) : Str :=
  st.username.getD [] ++ (match st.password with | some pw => ':' :: pw | none => [])

/-- The `user[:pass]@` part of the netloc getter: the `@` is appended
when the userinfo is non-empty or a username (even an empty one) is
set. -/
def userpassStr (st : FurlState) : Str :=
  if userpassRaw st ≠ [] ∨ st.username.isSome then userpassRaw st ++ ['@'] else userpassRaw st

/-- The `:port` part of the netloc getter: present when the port is
truthy and differs from the scheme's default. -/
def portSuffix (st : FurlState) : Str :=
  match st.port with
  | some p => if p ≠ 0 ∧ some p ≠ DEFAULT_PORTS st.scheme then ':' :: natToStr p else []
  | none => []

/-- The `Furl.netloc` getter: rebuild `user[:pass]@host[:port]`, omitting
the port when it equals the scheme's default; `None` when everything is
absent (unless the host is the empty string). -/
def netlocGet (st : FurlState) : Option Str :=
  if userpassStr st ++ (st.host.getD [] ++ portSuffix st) ≠ [] ∨ st.host = some [] then
    some (userpassStr st ++ (st.host.getD [] ++ portSuffix st))
  else none

/-- Whether `self.netloc` is truthy (a non-empty string). -/
def netlocTruthy (st : FurlState) : Bool :=
  match netlocGet st with
  | some s => s ≠ []
  | none => false

/-- `Furl.load(url)` on a fresh object: reset the credentials, host and
port, split the URL, assign the netloc, lowercase the scheme, fill in the
scheme's default port when none was given, and load path, query and
fragment from their raw parts. -/
def furlLoad (u : Str) : Except Err FurlState :=
  match urlsplit u with
  | .error e => .error e
  | .ok toks =>
    match netlocSet (some toks.netloc) freshState with
    | .error e => .error e
    | .ok st1 =>
      let scheme := if lowerS toks.scheme = [] then none else some (lowerS toks.scheme)
      let st2 := { st1 with scheme := scheme }
      let st3 :=
        match st2.port with
        | some p => if p = 0 then { st2 with port := DEFAULT_PORTS scheme } else st2
        | none => { st2 with port := DEFAULT_PORTS scheme }
      .ok { st3 with
            path := pathLoadFresh toks.path,
            query := queryLoadStr toks.query,
            fragment := fragLoad true toks.fragment }

/-- `furlLoad` with the error case defaulted, for stating concrete
facts about loaded objects. -/
def furlLoadD (u : String) : FurlState :=
  match furlLoad u.toList with
  | .ok st => st
  | .error _ => freshState

/-- `_force_absolute(self)` for a URL path: `bool(path) and
self.netloc`, i.e. the segment list is non-empty and the netloc is a
non-empty string. -/
def forceAbsolute (st : FurlState) : Bool :=
  !st.path.segments.isEmpty && netlocTruthy st

/-- The value of the `Path.isabsolute` property of a URL path: forced
true while `_force_absolute(self)` holds, else the stored flag. -/
def isabsoluteRead (st : FurlState) : Bool :=
  forceAbsolute st || st.path.isabs

/-- Assigning the `Path.isabsolute` property of a URL path: rejected with
`AttributeError` while `_force_absolute(self)` holds. -/
def isabsoluteSet (b : Bool) (st : FurlState) : Except Err FurlState :=
  if forceAbsolute st then .error .attributeError
  else .ok { st with path := ⟨st.path.segments, b⟩ }

/-- `Furl.__str__`: render the components, recombine with `urlunsplit`,
and apply the three string-level special cases. -/
def furlStr (st : FurlState) : Str :=
  let path := pathStr (isabsoluteRead st) st.path.segments
  let query := queryStr st.query
  let fragment := fragStr st.fragment
  let url := urlunsplit st.scheme (netlocGet st) path query fragment
  let schemeTruthy : Bool := match st.scheme with | some s => s ≠ [] | none => false
  let urlIsSchemeColon : Bool := match st.scheme with
    | some s => url = s ++ [':']
    | none => false
  if !schemeTruthy && startsW ['/', '/'] url && !startsW ['/', '/'] path then
    url.drop 2
  else if st.scheme.isSome && url.isEmpty then url ++ "://".toList
  else if urlIsSchemeColon then url ++ "//".toList
  else url

/-- `render(load(u))` as one partial function: the rendered form of a
loaded URL. -/
def loadStr (u : Str) : Except Err Str :=
  match furlLoad u with
  | .ok st => .ok (furlStr st)
  | .error e => .error e

/-- Assigning `Furl.port` as a statement-level step: the new state and
the raised exception, if any (a raise leaves the object unchanged). -/
def portAssign (p : Option Str) (st : FurlState) : FurlState × Option Err :=
  match portSetStr p st with
  | .ok st2 => (st2, none)
  | .error e => (st, some e)

/-- `self.port = oldport` during the rollback in `Furl.set`: the saved
port is an integer or `None`, so its string form is passed on. -/
def portRestore (p : Option Nat) (st : FurlState) : Except Err FurlState :=
  portSetStr (p.map natToStr) st

/-- The `except ValueError` handler in `Furl.set`: reassign the saved
netloc string and port and re-raise `e`; an exception raised by the
rollback itself escapes instead, from whatever state the rollback
assignment reached. -/
def restoreRaise (oldnetloc : Option Str) (oldport : Option Nat) (stx : FurlState)
    (e : Err) : FurlState × Option Err :=
  match netlocSetSt oldnetloc stx with
  | (sty, some e2) => (sty, some e2)
  | (str1, none) =>
    match portRestore oldport str1 with
    | .error e3 => (str1, some e3)
    | .ok str2 => (str2, some e)

/-- The `port=` assignment step of `Furl.set`, with the saved netloc and
port for the handler. -/
def portStepF (oldnetloc : Option Str) (oldport : Option Nat)
    (ptArg : Option (Option Str)) (stx : FurlState) : FurlState × Option Err :=
  match ptArg with
  | none => (stx, none)
  | some v =>
    match portSetStr v stx with
    | .ok st2 => (st2, none)
    | .error .valueError => restoreRaise oldnetloc oldport stx .valueError
    | .error e => (stx, some e)

/-- The netloc/port part of `Furl.set`: save the old netloc string and
port, try the provided assignments in order, and on a `ValueError`
reassign the saved netloc and port and re-raise.  A `TypeError` is not
caught.  The result is the final state of the object together with the
exception that escapes, if any. -/
def furlSetNetlocPort (nlArg : Option (Option Str)) (ptArg : Option (Option Str))
    (st : FurlState) : FurlState × Option Err :=
  match nlArg with
  | none => portStepF (netlocGet st) st.port ptArg st
  | some v =>
    match netlocSetSt v st with
    | (st1, none) => portStepF (netlocGet st) st.port ptArg st1
    | (sty, some .valueError) => restoreRaise (netlocGet st) st.port sty .valueError
    | (sty, some e) => (sty, some e)

/-! ## stringlike.py -/

/-- An operand of `StringLikeObject.__eq__`: its `str()` conversion,
which either yields a string or raises. -/
abbrev StrAttempt := Except Unit Str

/-- `StringLikeObject.__eq__`: compare the rendered strings; any
exception from either conversion makes the comparison `False`. -/
def slEq (a b : StrAttempt) : Bool :=
  match a, b with
  | .ok x, .ok y => x = y
  | _, _ => false

/-- `StringLikeObject.__ne__`: `not (self == other)`. -/
def slNe (a b : StrAttempt) : Bool := ! slEq a b

/-! ## Specification-side definitions

These definitions follow the wording of the claims (and, where a claim
needed correcting, its amended wording); the theorems below compare them
with the embedded source. -/

/-- The fragment path-versus-query heuristic as the claim words it: with
no `?`, the whole string is a query when it holds `=` and a path
otherwise; with a `?`, the second part decides, and without an `=` there
the entire original string is the path. -/
def fragHeuristicSpec (s : Str) : FragSt :=
  if '?' ∈ s then
    match splitFirst '?' s with
    | some (a, b) =>
      if '=' ∈ b then ⟨pathLoadFresh a, queryLoadStr b, true⟩
      else ⟨pathLoadFresh s, [], true⟩
    | none => ⟨⟨[], false⟩, [], true⟩
  else if '=' ∈ s then ⟨⟨[], false⟩, queryLoadStr s, true⟩
  else ⟨pathLoadFresh s, [], true⟩

/-- The two-list segment-join algorithm as amended: an operand equal to
`[]` or `['']` is ignored entirely; otherwise one slash is kept at the
border per the claim's three cases. -/
def joinTwoSpec (a b : List Str) : List Str :=
  if a = [] ∨ a = [[]] then (if b = [] ∨ b = [[]] then [] else b)
  else if b = [] ∨ b = [[]] then a
  else if a.getLast? = some [] ∧ (b.head? ≠ some [] ∨ b.length > 1) then a.dropLast ++ b
  else if a.getLast? ≠ some [] ∧ b.head? = some [] ∧ b.length > 1 then a ++ b.tail
  else a ++ b

/-- Whether a list's first element exists and is a non-empty segment. -/
def headNonempty (l : List Str) : Bool :=
  match l.head? with
  | some h => h ≠ []
  | none => false

/-- The body of the claimed segment-removal algorithm on treated
operands, with the suffix match stated through `List.IsSuffix`. -/
def removeSpecTreated (segs rem : List Str) : List Str :=
  if rem = segs then []
  else if segs.length < rem.length then segs
  else if removeCmp rem <:+ segs then
    if headNonempty rem ∧ segs.take (segs.length - (removeCmp rem).length) ≠ [] then
      segs.take (segs.length - (removeCmp rem).length) ++ [[]]
    else segs.take (segs.length - (removeCmp rem).length)
  else segs

/-- The segment-removal algorithm as the claim words it: treat `['']`
operands as `['', '']` and apply the removal rules. -/
def removeSpec (segments remove : List Str) : List Str :=
  removeSpecTreated (if segments = [[]] then [[], []] else segments)
    (if remove = [[]] then [[], []] else remove)

/-- The amended rendering of `Query.encode`: each pair in insertion
order, key and value quoted independently, always joined by `=`, the
pairs joined by the delimiter. -/
def queryEncodeSpec (delim : Str) : QuerySt → Str
  | [] => []
  | [kv] => encodePair kv
  | kv :: rest => encodePair kv ++ delim ++ queryEncodeSpec delim rest

/-- A plain URL byte for the amended round-trip claim: not a
percent-escape introducer and not a scheme, query or fragment delimiter,
and an 8-bit byte. -/
def plainChar (c : Char) : Bool :=
  ¬ (c = '%' ∨ c = ':' ∨ c = '?' ∨ c = '#') ∧ c.toNat < 256

/-- The state a path-only URL loads to: every component empty except the
path. -/
def pathOnlySt (p : PathSt) : FurlState :=
  ⟨none, none, none, none, none, p, [], ⟨⟨[], false⟩, [], true⟩⟩

/-! ## Bridge lemmas -/

theorem headNonempty_iff (l : List Str) (hl : l ≠ []) :
    headNonempty l = true ↔ l.head? ≠ some [] := by
  cases l with
  | nil => exact absurd rfl hl
  | cons x xs => simp [headNonempty]

theorem findIdxC_eq_none_iff (c : Char) (s : Str) :
    findIdxC c s = none ↔ c ∉ s := by
  unfold findIdxC
  rw [List.findIdx?_eq_none_iff]
  constructor
  · intro h hc
    have := h c hc
    simp at this
  · intro h x hx
    simp only [decide_eq_false_iff_not]
    intro hxc
    exact h (hxc ▸ hx)

theorem splitFirst_eq_none_iff (c : Char) (s : Str) :
    splitFirst c s = none ↔ c ∉ s := by
  unfold splitFirst
  rcases h : findIdxC c s with _ | i
  · simpa [h] using (findIdxC_eq_none_iff c s).mp h
  · simp only []
    constructor
    · intro hcontra; cases hcontra
    · intro hnot
      exfalso
      apply hnot
      by_contra hc
      rw [← findIdxC_eq_none_iff c s] at hc
      rw [hc] at h
      cases h

theorem is_valid_port_iff (s : Str) :
    is_valid_port s = true ↔
      (s.all isDig = true ∧ 1 ≤ strToNat s ∧ strToNat s ≤ 65535) := by
  unfold is_valid_port
  simp only [decide_eq_true_eq, not_or]
  constructor
  · rintro ⟨hne, hany, hzero, hbig⟩
    refine ⟨?_, by omega, by omega⟩
    rw [List.all_eq_true]
    intro c hc
    by_contra hdig
    apply hany
    rw [List.any_eq_true]
    exact ⟨c, hc, by simpa using hdig⟩
  · rintro ⟨hall, hone, hle⟩
    have hne : s ≠ [] := by
      rintro rfl
      simp [strToNat] at hone
    refine ⟨hne, ?_, by omega, by omega⟩
    intro hany
    rw [List.any_eq_true] at hany
    obtain ⟨c, hc, hnd⟩ := hany
    rw [List.all_eq_true] at hall
    have hd := hall c hc
    simp only [decide_eq_true_eq] at hnd
    exact hnd hd

/-! ## Claim C3: the fragment path-versus-query heuristic -/

/-- C3.  `Fragment.load` follows the claimed heuristic exactly: with no
`?` the string is a query iff it holds `=`, else a path; with a `?` the
second part decides, and without `=` there the whole original string
becomes the path.  The three named examples evaluate as the claim
states. -/
theorem c3_fragment_heuristic :
    (∀ s : Str, fragLoad true s = fragHeuristicSpec s) ∧
    fragLoad true ("woofs=dogs".toList) =
      ⟨⟨[], false⟩, [("woofs".toList, some "dogs".toList)], true⟩ ∧
    fragLoad true ("supinthisthread".toList) = ⟨⟨["supinthisthread".toList], false⟩, [], true⟩ ∧
    fragLoad true ("a?b?".toList) = ⟨⟨["a?b?".toList], false⟩, [], true⟩ := by
  refine ⟨fun s => ?_, by decide, by decide, by decide⟩
  unfold fragLoad fragHeuristicSpec
  cases h : splitFirst '?' s with
  | none =>
    have hq : '?' ∉ s := (splitFirst_eq_none_iff '?' s).mp h
    simp only [hq, if_neg (by simpa using hq)]
    by_cases he : '=' ∈ s
    · simp [he, pathLoadFresh]
    · simp [he, queryLoadStr, parse_qsl, splitC, uqPlus, plusToSpace, unquote]
  | some p =>
    have hq : '?' ∈ s := by
      by_contra hq
      rw [← splitFirst_eq_none_iff '?' s] at hq
      rw [hq] at h
      cases h
    simp only [if_pos hq]
    by_cases he : '=' ∈ p.2
    · simp [he]
    · simp [he, queryLoadStr, parse_qsl, splitC, uqPlus, plusToSpace, unquote]

/-! ## Claim C4: the segment-join algorithm -/

/-- C4 counterexample.  The claim states `join([], b) == b` for every
`b`, but `join_path_segments` skips an operand equal to `['']`, so
`join([], ['']) == []`, not `['']`. -/
theorem c4_counterexample :
    join_path_segments [([] : List Str), [[]]] = [] ∧
    join_path_segments [([] : List Str), [[]]] ≠ [[]] := by decide

/-- C4 as amended.  With the skip rule added — an operand equal to `[]`
or `['']` is ignored entirely — the claimed algorithm matches
`join_path_segments` on every pair of lists, and the claim's identities
hold (the `join(a, []) == a` and `join([], b) == b` identities hold for
operands other than `['']`). -/
theorem c4_join_amended :
    (∀ a b : List Str, join_path_segments [a, b] = joinTwoSpec a b) ∧
    (∀ b : List Str, b ≠ [[]] → join_path_segments [[], b] = b) ∧
    (∀ a : List Str, a ≠ [[]] → join_path_segments [a, []] = a) ∧
    join_path_segments [["a".toList, []], ["b".toList]] = ["a".toList, "b".toList] ∧
    join_path_segments [["a".toList, []], [[], "b".toList]] = ["a".toList, [], "b".toList] ∧
    join_path_segments [["a".toList], [[], "b".toList]] = ["a".toList, "b".toList] := by
  have hstep1 : ∀ a : List Str, joinStep [] a = if a = [] ∨ a = [[]] then [] else a := by
    intro a
    unfold joinStep
    by_cases h : a = [] ∨ a = [[]]
    · rw [if_pos h, if_pos h]
    · rw [if_neg h, if_neg h, if_pos rfl]
  have main : ∀ a b : List Str, join_path_segments [a, b] = joinTwoSpec a b := by
    intro a b
    show joinStep (joinStep [] a) b = joinTwoSpec a b
    unfold joinTwoSpec
    by_cases h1 : a = [] ∨ a = [[]]
    · simp only [hstep1, if_pos h1]
    · have ha : a ≠ [] := fun hc => h1 (Or.inl hc)
      simp only [hstep1, if_neg h1]
      unfold joinStep
      by_cases h2 : b = [] ∨ b = [[]]
      · simp only [if_pos h2]
      · simp only [if_neg h2, if_neg ha]
  refine ⟨main, ?_, ?_, by decide, by decide, by decide⟩
  · intro b hb
    rw [main]
    unfold joinTwoSpec
    rw [if_pos (Or.inl rfl)]
    rcases eq_or_ne b [] with rfl | hbne
    · rw [if_pos (Or.inl rfl)]
    · rw [if_neg (by rintro (hc | hc); exacts [hbne hc, hb hc])]
  · intro a ha
    rw [main]
    unfold joinTwoSpec
    rcases eq_or_ne a [] with rfl | hane
    · rw [if_pos (Or.inl rfl), if_pos (Or.inl rfl)]
    · rw [if_neg (by rintro (hc | hc); exacts [hane hc, ha hc]),
        if_pos (Or.inl rfl)]

/-! ## Claim C5: the segment-removal algorithm -/

/-- C5.  `remove_path_segments` computes the claimed algorithm: `['']`
operands are treated as `['','']`, equality empties the result, a longer
remove list is a no-op, a leading empty element of a multi-element remove
is dropped for comparison, a suffix match strips the suffix (appending a
trailing empty segment when the remove list started with a non-empty
segment and segments remain), and a non-suffix is a no-op.  The two
named examples evaluate as the claim states. -/
theorem c5_remove_path_segments :
    (∀ segments remove : List Str, remove_path_segments segments remove = removeSpec segments remove) ∧
    remove_path_segments [[], "a".toList, "b".toList, "c".toList] ["b".toList, "c".toList] =
      [[], "a".toList, []] ∧
    remove_path_segments [[], "a".toList, "b".toList, "c".toList] [[], "b".toList, "c".toList] =
      [[], "a".toList] := by
  have core : ∀ segs rem : List Str, removeTreated segs rem = removeSpecTreated segs rem := by
    intro segs rem
    unfold removeTreated removeSpecTreated
    by_cases h1 : rem = segs
    · rw [if_pos h1, if_pos h1]
    · rw [if_neg h1, if_neg h1]
      by_cases h2 : rem.length > segs.length
      · have h2b : segs.length < rem.length := h2
        rw [if_pos h2, if_pos h2b]
      · have h2b : ¬ segs.length < rem.length := h2
        rw [if_neg h2, if_neg h2b]
        have hrlen : (removeCmp rem).length ≤ rem.length := by
          unfold removeCmp
          split
          · simp [List.length_tail]
          · exact le_refl _
        have hiff : (removeCmp rem <:+ segs) ↔
            removeCmp rem = segs.drop (segs.length - (removeCmp rem).length) :=
          List.suffix_iff_eq_drop
        by_cases h3 : removeCmp rem = []
        · have hremnil : rem = [] := by
            by_contra hrne
            unfold removeCmp at h3
            rcases Decidable.em (1 < rem.length ∧ rem.head? = some []) with hc | hc
            · rw [if_pos hc] at h3
              have hc1 := hc.1
              have hlt : rem.length - 1 = 0 := by
                rw [← List.length_tail, h3, List.length_nil]
              omega
            · rw [if_neg hc] at h3
              exact hrne h3
          rw [if_neg (fun hc => hc.1 h3)]
          rw [if_pos (show removeCmp rem <:+ segs from h3 ▸ List.nil_suffix)]
          rw [if_neg (by simp [headNonempty, hremnil])]
          rw [h3]
          simp
        · by_cases h4 : removeCmp rem = segs.drop (segs.length - (removeCmp rem).length)
          · rw [if_pos ⟨h3, h4⟩, if_pos (hiff.mpr h4)]
            have hremne : rem ≠ [] := by
              intro hc
              apply h3
              unfold removeCmp
              rw [hc]
              simp
            have hhb : (headNonempty rem = true) ↔ rem.head? ≠ some [] :=
              headNonempty_iff rem hremne
            by_cases h5 : rem.head? = some []
            · rw [if_neg (fun hc => hc.1 h5), if_neg (fun hc => (hhb.mp hc.1) h5)]
            · by_cases h6 : segs.take (segs.length - (removeCmp rem).length) = []
              · rw [if_neg (fun hc => hc.2 h6), if_neg (fun hc => hc.2 h6)]
              · rw [if_pos ⟨h5, h6⟩, if_pos ⟨hhb.mpr h5, h6⟩]
          · rw [if_neg (fun hc => h4 hc.2), if_neg (fun hc => h4 (hiff.mp hc))]
  refine ⟨fun segments remove => ?_, by decide, by decide⟩
  unfold remove_path_segments removeSpec
  exact core _ _

/-! ## Claim C7: the port setter -/

/-- C7.  Assigning `Furl.port` stores the integer exactly when the
string form is all digits with value in `[1, 65535]`; otherwise it
raises `ValueError` leaving the stored port unchanged; assigning `None`
stores the scheme's default port (which is `None` for an unknown
scheme). -/
theorem c7_port_setter :
    ∀ (s : Str) (st : FurlState),
      portAssign none st = ({ st with port := DEFAULT_PORTS st.scheme }, none) ∧
      (s.all isDig = true ∧ 1 ≤ strToNat s ∧ strToNat s ≤ 65535 →
        portAssign (some s) st = ({ st with port := some (strToNat s) }, none)) ∧
      (¬ (s.all isDig = true ∧ 1 ≤ strToNat s ∧ strToNat s ≤ 65535) →
        portAssign (some s) st = (st, some .valueError)) := by
  intro s st
  refine ⟨rfl, fun h => ?_, fun h => ?_⟩
  · simp only [portAssign, portSetStr]
    rw [if_pos ((is_valid_port_iff s).mpr h)]
  · simp only [portAssign, portSetStr]
    rw [if_neg (fun hv => h ((is_valid_port_iff s).mp hv))]

/-! ## Claim C10: StringLikeObject equality -/

/-- C10.  `__eq__` is rendered-string equality: it is true exactly when
both conversions succeed with the same string, a raising conversion on
either side yields `False` rather than propagating, and `__ne__` is the
exact negation of `__eq__`. -/
theorem c10_stringlike_eq :
    ∀ a b : StrAttempt,
      (slEq a b = true ↔ ∃ s : Str, a = .ok s ∧ b = .ok s) ∧
      slNe a b = ! slEq a b ∧
      (∀ x y : Str, slEq (.ok x) (.ok y) = true ↔ x = y) ∧
      (∀ e : Unit, slEq (.error e) b = false ∧ slEq a (.error e) = false) := by
  intro a b
  refine ⟨?_, rfl, ?_, fun e => ⟨?_, ?_⟩⟩
  · cases a with
    | ok x =>
      cases b with
      | ok y =>
        simp only [slEq, decide_eq_true_eq]
        constructor
        · rintro rfl
          exact ⟨x, rfl, rfl⟩
        · rintro ⟨s, hs1, hs2⟩
          cases hs1
          cases hs2
          rfl
      | error e => simp [slEq]
    | error e => simp [slEq]
  · intro x y
    simp [slEq]
  · cases b <;> simp [slEq]
  · cases a <;> simp [slEq]

/-! ## Claim C2: query rendering -/

/-- C2 counterexample.  The claim states that a pair whose value is
absent renders as the bare key with no `=`, but `Query.encode` always
joins `str(key)` and `str(value)` with `=`, so a `None` value renders as
`key=None`, not `key`. -/
theorem c2_counterexample :
    queryEncode ['&'] [("a".toList, none)] = "a=None".toList ∧
    queryEncode ['&'] [("a".toList, none)] ≠ "a".toList := by decide

/-- C2 as amended.  `Query.encode` emits every stored pair in insertion
order, percent-encoding key and value independently, and joins the two
with `=` in every pair: an absent (`None`) value renders as the string
`None` after `str()`, while an empty-string value renders as `key=`. -/
theorem c2_encode_amended :
    (∀ (delim : Str) (params : QuerySt), queryEncode delim params = queryEncodeSpec delim params) ∧
    (∀ (delim : Str) (ps qs : QuerySt), ps ≠ [] → qs ≠ [] →
      queryEncode delim (ps ++ qs) = queryEncode delim ps ++ delim ++ queryEncode delim qs) ∧
    (∀ kv : Str × QVal, '=' ∈ encodePair kv) ∧
    (∀ k : Str, encodePair (k, some []) = quotePlus SAFE_KEY_CHARS k ++ ['=']) ∧
    (∀ k : Str, encodePair (k, none) =
      quotePlus SAFE_KEY_CHARS k ++ '=' :: quotePlus SAFE_VALUE_CHARS ("None".toList)) := by
  refine ⟨?_, ?_, ?_, fun k => rfl, fun k => rfl⟩
  · intro delim params
    induction params with
    | nil => rfl
    | cons kv rest ih =>
      cases rest with
      | nil => rfl
      | cons kv2 rest2 =>
        have h1 : queryEncode delim (kv :: kv2 :: rest2) =
            encodePair kv ++ delim ++ queryEncode delim (kv2 :: rest2) := rfl
        have h2 : queryEncodeSpec delim (kv :: kv2 :: rest2) =
            encodePair kv ++ delim ++ queryEncodeSpec delim (kv2 :: rest2) := rfl
        rw [h1, h2, ih]
  · intro delim ps qs hps hqs
    induction ps with
    | nil => exact absurd rfl hps
    | cons kv rest ih =>
      cases rest with
      | nil =>
        cases qs with
        | nil => exact absurd rfl hqs
        | cons q1 qs2 => rfl
      | cons kv2 rest2 =>
        have h1 : queryEncode delim ((kv :: kv2 :: rest2) ++ qs) =
            encodePair kv ++ delim ++ queryEncode delim ((kv2 :: rest2) ++ qs) := rfl
        have h2 : queryEncode delim (kv :: kv2 :: rest2) =
            encodePair kv ++ delim ++ queryEncode delim (kv2 :: rest2) := rfl
        rw [h1, ih (by simp), h2]
        simp [List.append_assoc]
  · intro kv
    show '=' ∈ quotePlus SAFE_KEY_CHARS kv.1 ++ '=' :: quotePlus SAFE_VALUE_CHARS (pyStrV kv.2)
    simp

/-! ## Claim C8: default ports and the netloc port suffix -/

/-- C8.  The scheme-to-port table is `ftp:21, ssh:22, http:80,
https:443`; loading an `http` URL with no explicit port yields port 80;
and for a state with a host and no userinfo the rendered netloc carries
`:port` exactly when the port is set and differs from the scheme's
default — so an `https` URL with port 80 keeps `:80` while one with port
443 omits it. -/
theorem c8_default_ports :
    (DEFAULT_PORTS (some "ftp".toList) = some 21 ∧ DEFAULT_PORTS (some "ssh".toList) = some 22 ∧
      DEFAULT_PORTS (some "http".toList) = some 80 ∧
      DEFAULT_PORTS (some "https".toList) = some 443) ∧
    (furlLoadD "http://example.com/a").port = some 80 ∧
    (∀ (st : FurlState) (h : Str) (p : Nat), st.host = some h → st.username = none →
      st.password = none → st.port = some p → 1 ≤ p →
      (some p ≠ DEFAULT_PORTS st.scheme → netlocGet st = some (h ++ ':' :: natToStr p)) ∧
      (some p = DEFAULT_PORTS st.scheme → netlocGet st = some h)) ∧
    (∀ (st : FurlState) (h : Str), st.host = some h → st.username = none →
      st.password = none → st.port = none → netlocGet st = some h) ∧
    netlocGet (furlLoadD "https://h:80/") = some ("h:80".toList) ∧
    netlocGet (furlLoadD "https://h:443/") = some ("h".toList) := by
  have huser : ∀ st : FurlState, st.username = none → st.password = none →
      userpassStr st = [] := by
    intro st hu hpw
    simp [userpassStr, userpassRaw, hu, hpw]
  refine ⟨by decide, by decide, ?_, ?_, by decide, by decide⟩
  · intro st h p hh hu hpw hp hp1
    have hus := huser st hu hpw
    constructor
    · intro hne
      have hsuf : portSuffix st = ':' :: natToStr p := by
        simp only [portSuffix, hp]
        rw [if_pos ⟨by omega, hne⟩]
      unfold netlocGet
      rw [hus, hsuf, hh]
      rw [if_pos (Or.inl (by simp))]
      simp
    · intro heq
      have hsuf : portSuffix st = [] := by
        simp only [portSuffix, hp]
        rw [if_neg (fun hc => hc.2 heq)]
      unfold netlocGet
      rw [hus, hsuf, hh]
      rcases eq_or_ne h [] with rfl | hne
      · rw [if_pos (Or.inr (by simp))]
        simp
      · rw [if_pos (Or.inl (by simp [hne]))]
        simp
  · intro st h hh hu hpw hp
    have hus := huser st hu hpw
    have hsuf : portSuffix st = [] := by simp [portSuffix, hp]
    unfold netlocGet
    rw [hus, hsuf, hh]
    rcases eq_or_ne h [] with rfl | hne
    · rw [if_pos (Or.inr (by simp))]
      simp
    · rw [if_pos (Or.inl (by simp [hne]))]
      simp

/-! ## Claim C9: the force-absolute invariant -/

/-- C9 counterexample.  The claim states that a non-empty netloc forces
`path.isabsolute` to read true and makes assigning it raise, but
`_force_absolute` also requires a non-empty segment list: for
`Furl('http://h')` the netloc is non-empty yet `isabsolute` reads false
and assigning it succeeds. -/
theorem c9_counterexample :
    netlocTruthy (furlLoadD "http://h") = true ∧
    isabsoluteRead (furlLoadD "http://h") = false ∧
    isabsoluteSet false (furlLoadD "http://h") =
      .ok { furlLoadD "http://h" with path := ⟨[], false⟩ } := by decide

/-- C9 as amended.  `isabsolute` is forced true and read-only exactly
when the netloc is non-empty **and** the path has at least one segment;
otherwise (empty netloc, or empty path) the flag is freely settable to
either value and reads back as assigned. -/
theorem c9_force_absolute_amended :
    ∀ (st : FurlState) (b : Bool),
      (netlocTruthy st = true → st.path.segments ≠ [] →
        isabsoluteRead st = true ∧ isabsoluteSet b st = .error .attributeError) ∧
      (netlocTruthy st = false ∨ st.path.segments = [] →
        isabsoluteSet b st = .ok { st with path := ⟨st.path.segments, b⟩ } ∧
        isabsoluteRead { st with path := ⟨st.path.segments, b⟩ } = b) := by
  intro st b
  constructor
  · intro hnl hseg
    have hforce : forceAbsolute st = true := by
      simp [forceAbsolute, hnl, hseg]
    refine ⟨by simp [isabsoluteRead, hforce], ?_⟩
    unfold isabsoluteSet
    rw [if_pos hforce]
  · intro hcase
    have hnl2 : netlocTruthy { st with path := ⟨st.path.segments, b⟩ } = netlocTruthy st := rfl
    have hforce : forceAbsolute st = false := by
      rcases hcase with hnl | hseg
      · simp [forceAbsolute, hnl]
      · simp [forceAbsolute, hseg]
    constructor
    · unfold isabsoluteSet
      rw [if_neg (by simp [hforce])]
    · have hforce2 : forceAbsolute { st with path := ⟨st.path.segments, b⟩ } = false := by
        unfold forceAbsolute at hforce ⊢
        rw [show ({ st with path := ⟨st.path.segments, b⟩ } : FurlState).path.segments =
          st.path.segments from rfl, hnl2]
        exact hforce
      simp [isabsoluteRead, hforce2]

/-! ## Claim C6: netloc atomicity -/

theorem netlocHostPort_err (rest : Str) (e : Err) (h : netlocHostPort rest = .error e) :
    e = .valueError := by
  unfold netlocHostPort at h
  repeat' split at h
  all_goals simp_all

theorem netlocPortParse_err (sch : Option Str) (ps : Option Str) (e : Err)
    (h : netlocPortParse sch ps = .error e) : e = .valueError := by
  unfold netlocPortParse at h
  repeat' split at h
  all_goals simp_all

theorem portSetStr_err (v : Option Str) (st : FurlState) (e : Err)
    (h : portSetStr v st = .error e) : e = .valueError := by
  unfold portSetStr at h
  repeat' split at h
  all_goals simp_all

theorem netlocParse_some_err (sch : Option Str) (s : Str) (e : Err)
    (h : netlocParse sch (some s) = .error e) : e = .valueError := by
  rw [show netlocParse sch (some s) =
      (if bracketsBad (s.takeWhile fun c => ¬ (c = '/' ∨ c = '?' ∨ c = '#')) then
        .error .valueError
      else
        match netlocUserSplit s with
        | (username, password, rest) =>
          match netlocHostPort rest with
          | .error e => .error e
          | .ok (host, portStr) =>
            match netlocPortParse sch portStr with
            | .error e => .error e
            | .ok prt =>
              .ok (if username = some [] then none else username,
                   if password = some [] then none else password,
                   if host = [] then none else some host,
                   prt)) from rfl] at h
  split at h
  · exact (Except.error.inj h).symm
  · rcases hus : netlocUserSplit s with ⟨u, pw, rest⟩
    rw [hus] at h
    simp only [] at h
    cases hhp : netlocHostPort rest with
    | error e2 =>
      rw [hhp] at h
      simp only [] at h
      cases h
      exact netlocHostPort_err _ _ hhp
    | ok t =>
      rw [hhp] at h
      obtain ⟨host, portStr⟩ := t
      simp only [] at h
      cases hpp : netlocPortParse sch portStr with
      | error e3 =>
        rw [hpp] at h
        simp only [] at h
        cases h
        exact netlocPortParse_err _ _ _ hpp
      | ok prt =>
        rw [hpp] at h
        simp at h

theorem netlocSet_ok_iff (n : Option Str) (st st2 : FurlState) :
    netlocSet n st = .ok st2 ↔ netlocSetSt n st = (st2, none) := by
  unfold netlocSet
  cases hns : netlocSetSt n st with
  | mk st3 oe =>
    cases oe with
    | none => simp
    | some e => simp

theorem netlocSetSt_none_shape (n : Option Str) (st st2 : FurlState)
    (h : netlocSetSt n st = (st2, none)) :
    netlocParse st.scheme n = .ok (st2.username, st2.password, st2.host, st2.port) ∧
    hostCheckBad st2.host = false ∧
    st2 = { st with username := st2.username, password := st2.password,
                    host := st2.host, port := st2.port } := by
  unfold netlocSetSt at h
  cases hp : netlocParse st.scheme n with
  | error e =>
    rw [hp] at h
    simp at h
  | ok t =>
    rw [hp] at h
    obtain ⟨u, pw, ho, p⟩ := t
    simp only [] at h
    split at h
    · simp at h
    · rename_i hhc
      simp only [Prod.mk.injEq] at h
      obtain ⟨h1, -⟩ := h
      subst h1
      simp only [Bool.not_eq_true] at hhc
      exact ⟨rfl, hhc, rfl⟩

theorem netlocSetSt_err_shape (s : Str) (st st1 : FurlState) (e : Err)
    (h : netlocSetSt (some s) st = (st1, some e)) :
    e = .valueError ∧ { st1 with port := st.port } = st := by
  unfold netlocSetSt at h
  cases hp : netlocParse st.scheme (some s) with
  | error e2 =>
    rw [hp] at h
    simp only [Prod.mk.injEq, Option.some.injEq] at h
    obtain ⟨h1, h2⟩ := h
    subst h2
    rw [← h1]
    exact ⟨netlocParse_some_err _ _ _ hp, rfl⟩
  | ok t =>
    rw [hp] at h
    obtain ⟨u, pw, ho, p⟩ := t
    simp only [] at h
    split at h
    · simp only [Prod.mk.injEq, Option.some.injEq] at h
      obtain ⟨h1, h2⟩ := h
      subst h2
      rw [← h1]
      exact ⟨rfl, rfl⟩
    · simp at h

/-- C6 counterexample.  On a `Furl` with no netloc, a combined
`set(netloc='a:0')` hits the invalid port, and the rollback then
reassigns the saved netloc `None`, which raises `TypeError` — not the
`ValueError` the claim promises.  And a direct netloc assignment is not
atomic either: on `http://h` (port 80), the netloc `u]@h[x:1` passes
the netloc-level bracket check (the `]` sits in the userinfo), assigns
port 1, and only then raises `ValueError` from the host setter's own
validation of the host `h[x` — leaving the port mutated. -/
theorem c6_counterexample :
    (furlSetNetlocPort (some (some "a:0".toList)) none (furlLoadD "")).2 = some .typeError ∧
    (furlSetNetlocPort (some (some "a:0".toList)) none (furlLoadD "")).2 ≠ some .valueError ∧
    (furlLoadD "http://h").port = some 80 ∧
    netlocSetSt (some "u]@h[x:1".toList) (furlLoadD "http://h") =
      ({ furlLoadD "http://h" with port := some 1 }, some .valueError) := by
  decide

/-- C6 as amended.  A direct netloc assignment can only raise
`ValueError`, and mutates at most the port when it does (the port is
assigned before the host, and the host setter's own validation can
still raise afterwards); when the raise comes from the parse or the
port assignment — in particular on an invalid port — nothing at all is
mutated.  A combined `Furl.set(netloc=..., port=...)` call either
succeeds or raises `ValueError` with username, password, host and port
restored to their prior values — provided the prior state's rendered
netloc re-parses to exactly its own components and its port survives
reassignment (`h1`/`h2`), which fails e.g. when there is no prior
netloc (the rollback then raises `TypeError`). -/
theorem c6_netloc_atomic_amended (st : FurlState) (nstr : Str) (ptArg : Option (Option Str))
    (h1 : netlocSet (netlocGet st) st = .ok st)
    (h2 : portRestore st.port st = .ok st) :
    (∀ e : Err, (netlocSetSt (some nstr) st).2 = some e →
      e = .valueError ∧ { (netlocSetSt (some nstr) st).1 with port := st.port } = st) ∧
    (∀ e : Err, netlocParse st.scheme (some nstr) = .error e →
      netlocSetSt (some nstr) st = (st, some .valueError)) ∧
    ((furlSetNetlocPort (some (some nstr)) ptArg st).2 = none ∨
      furlSetNetlocPort (some (some nstr)) ptArg st = (st, some .valueError)) := by
  have h1x := (netlocSet_ok_iff (netlocGet st) st st).mp h1
  obtain ⟨hparse, hhc, -⟩ := netlocSetSt_none_shape _ _ _ h1x
  have hrestore : ∀ stx : FurlState, stx.scheme = st.scheme → stx.path = st.path →
      stx.query = st.query → stx.fragment = st.fragment →
      restoreRaise (netlocGet st) st.port stx .valueError = (st, some .valueError) := by
    intro stx hsch hpath hq hf
    unfold restoreRaise
    have hset2 : netlocSetSt (netlocGet st) stx = (st, none) := by
      unfold netlocSetSt
      rw [hsch, hparse]
      simp only [hhc, Bool.false_eq_true, if_false, Prod.mk.injEq]
      refine ⟨?_, trivial⟩
      cases st
      cases stx
      simp_all
    rw [hset2]
    simp only []
    rw [h2]
  refine ⟨?_, ?_, ?_⟩
  · intro e he
    have hx : netlocSetSt (some nstr) st = ((netlocSetSt (some nstr) st).1, some e) := by
      rw [← he]
    exact netlocSetSt_err_shape nstr st _ e hx
  · intro e he
    have hev := netlocParse_some_err _ _ _ he
    subst hev
    unfold netlocSetSt
    rw [he]
  · cases hns : netlocSetSt (some nstr) st with
    | mk st1 oe =>
      cases oe with
      | none =>
        obtain ⟨hp1, hhc1, hshape⟩ := netlocSetSt_none_shape _ _ _ hns
        have hsch : st1.scheme = st.scheme := by rw [hshape]
        have hpath : st1.path = st.path := by rw [hshape]
        have hq : st1.query = st.query := by rw [hshape]
        have hf : st1.fragment = st.fragment := by rw [hshape]
        simp only [furlSetNetlocPort, hns]
        cases ptArg with
        | none => left; rfl
        | some v =>
          cases hps : portSetStr v st1 with
          | ok st2 =>
            left
            simp only [portStepF, hps]
          | error e =>
            have he := portSetStr_err v st1 e hps
            subst he
            right
            simp only [portStepF, hps]
            exact hrestore st1 hsch hpath hq hf
      | some e =>
        obtain ⟨hev, hsh⟩ := netlocSetSt_err_shape nstr st st1 e hns
        subst hev
        right
        simp only [furlSetNetlocPort, hns]
        have hsch : st1.scheme = st.scheme := by rw [← hsh]
        have hpath : st1.path = st.path := by rw [← hsh]
        have hq : st1.query = st.query := by rw [← hsh]
        have hf : st1.fragment = st.fragment := by rw [← hsh]
        exact hrestore st1 hsch hpath hq hf

/-- C6 witness.  A loaded URL whose netloc round-trips satisfies the
amended theorem's hypotheses, and a combined update with an invalid port
then raises `ValueError` with the state fully restored. -/
theorem c6_witness :
    furlSetNetlocPort (some (some "h:0".toList)) none
        (furlLoadD "http://u:pw@host.com:8080/x") =
      (furlLoadD "http://u:pw@host.com:8080/x", some .valueError) := by
  have h1 : netlocSet (netlocGet (furlLoadD "http://u:pw@host.com:8080/x"))
      (furlLoadD "http://u:pw@host.com:8080/x") =
      .ok (furlLoadD "http://u:pw@host.com:8080/x") := by decide
  have h2 : portRestore (furlLoadD "http://u:pw@host.com:8080/x").port
      (furlLoadD "http://u:pw@host.com:8080/x") =
      .ok (furlLoadD "http://u:pw@host.com:8080/x") := by decide
  rcases (c6_netloc_atomic_amended (furlLoadD "http://u:pw@host.com:8080/x")
      ("h:0".toList) none h1 h2).2.2 with hc | hc
  · have hval : (furlSetNetlocPort (some (some "h:0".toList)) none
        (furlLoadD "http://u:pw@host.com:8080/x")).2 = some .valueError := by decide
    rw [hval] at hc
    cases hc
  · exact hc

/-! ## String-level lemmas for the round-trip development -/

theorem splitC_cons_sep (sep : Char) (rest : Str) :
    splitC sep (sep :: rest) = [] :: splitC sep rest := by
  simp [splitC]

theorem splitC_cons_ne (sep a : Char) (rest : Str) (ha : a ≠ sep) :
    splitC sep (a :: rest) =
      match splitC sep rest with
      | [] => [[a]]
      | h :: t => (a :: h) :: t := by
  simp [splitC, ha]

theorem splitC_ne_nil (sep : Char) (s : Str) : splitC sep s ≠ [] := by
  induction s with
  | nil => simp [splitC]
  | cons a rest ih =>
    by_cases ha : a = sep
    · subst ha
      rw [splitC_cons_sep]
      simp
    · rw [splitC_cons_ne sep a rest ha]
      cases hr : splitC sep rest with
      | nil => exact absurd hr ih
      | cons h t => simp

theorem mem_splitC_mem (sep : Char) (c : Char) (s : Str) :
    ∀ part ∈ splitC sep s, c ∈ part → c ∈ s := by
  induction s with
  | nil =>
    intro part hp hc
    simp [splitC] at hp
    subst hp
    cases hc
  | cons a rest ih =>
    intro part hp hc
    by_cases ha : a = sep
    · subst ha
      rw [splitC_cons_sep] at hp
      rcases List.mem_cons.mp hp with rfl | hp2
      · cases hc
      · exact List.mem_cons_of_mem _ (ih part hp2 hc)
    · rw [splitC_cons_ne sep a rest ha] at hp
      cases hr : splitC sep rest with
      | nil => exact absurd hr (splitC_ne_nil sep rest)
      | cons h t =>
        rw [hr] at hp
        simp only [] at hp
        rcases List.mem_cons.mp hp with rfl | hp2
        · rcases List.mem_cons.mp hc with rfl | hc2
          · exact List.mem_cons_self _ _
          · exact List.mem_cons_of_mem _ (ih h (hr ▸ List.mem_cons_self h t) hc2)
        · exact List.mem_cons_of_mem _ (ih part (hr ▸ List.mem_cons_of_mem _ hp2) hc)

theorem mem_splitC_no_sep (sep : Char) (s : Str) :
    ∀ part ∈ splitC sep s, sep ∉ part := by
  induction s with
  | nil =>
    intro part hp
    simp [splitC] at hp
    subst hp
    simp
  | cons a rest ih =>
    intro part hp
    by_cases ha : a = sep
    · subst ha
      rw [splitC_cons_sep] at hp
      rcases List.mem_cons.mp hp with rfl | hp2
      · simp
      · exact ih part hp2
    · rw [splitC_cons_ne sep a rest ha] at hp
      cases hr : splitC sep rest with
      | nil => exact absurd hr (splitC_ne_nil sep rest)
      | cons h t =>
        rw [hr] at hp
        simp only [] at hp
        rcases List.mem_cons.mp hp with rfl | hp2
        · intro hmem
          rcases List.mem_cons.mp hmem with heq | hmem2
          · exact ha heq.symm
          · exact ih h (hr ▸ List.mem_cons_self h t) hmem2
        · exact ih part (hr ▸ List.mem_cons_of_mem _ hp2)

theorem splitC_no_sep_eq (sep : Char) (x : Str) (hx : sep ∉ x) : splitC sep x = [x] := by
  induction x with
  | nil => rfl
  | cons a rest ih =>
    have ha : a ≠ sep := fun hc => hx (hc ▸ List.mem_cons_self a rest)
    rw [splitC_cons_ne sep a rest ha, ih (fun hm => hx (List.mem_cons_of_mem _ hm))]

theorem splitC_append_sep (sep : Char) (x rest : Str) (hx : sep ∉ x) :
    splitC sep (x ++ sep :: rest) = x :: splitC sep rest := by
  induction x with
  | nil =>
    rw [List.nil_append, splitC_cons_sep]
  | cons a t ih =>
    have ha : a ≠ sep := fun hc => hx (hc ▸ List.mem_cons_self a t)
    rw [List.cons_append, splitC_cons_ne sep a _ ha,
      ih (fun hm => hx (List.mem_cons_of_mem _ hm))]

theorem joinC_pair (sep : Char) (x y : Str) (t : List Str) :
    joinC sep (x :: y :: t) = x ++ sep :: joinC sep (y :: t) := rfl

theorem splitC_joinC (sep : Char) (xs : List Str) (hxs : xs ≠ [])
    (hsep : ∀ x ∈ xs, sep ∉ x) : splitC sep (joinC sep xs) = xs := by
  induction xs with
  | nil => exact absurd rfl hxs
  | cons x xs2 ih =>
    cases xs2 with
    | nil => exact splitC_no_sep_eq sep x (hsep x (List.mem_cons_self x []))
    | cons y ys =>
      rw [joinC_pair, splitC_append_sep sep x _ (hsep x (List.mem_cons_self _ _)),
        ih (by simp) (fun z hz => hsep z (List.mem_cons_of_mem _ hz))]

theorem mem_joinC (sep : Char) (xs : List Str) (c : Char) (hc : c ∈ joinC sep xs) :
    c = sep ∨ ∃ x ∈ xs, c ∈ x := by
  induction xs with
  | nil => cases hc
  | cons x xs2 ih =>
    cases xs2 with
    | nil => exact Or.inr ⟨x, List.mem_cons_self x [], hc⟩
    | cons y ys =>
      rw [joinC_pair] at hc
      rcases List.mem_append.mp hc with h1 | h2
      · exact Or.inr ⟨x, List.mem_cons_self _ _, h1⟩
      · rcases List.mem_cons.mp h2 with rfl | h3
        · exact Or.inl rfl
        · rcases ih h3 with h | ⟨z, hz, hcz⟩
          · exact Or.inl h
          · exact Or.inr ⟨z, List.mem_cons_of_mem _ hz, hcz⟩

theorem joinC_cons_head (sep : Char) (x : Str) (t : List Str) (hx : x ≠ []) :
    (joinC sep (x :: t)).head? = x.head? := by
  cases x with
  | nil => exact absurd rfl hx
  | cons a s =>
    cases t with
    | nil => rfl
    | cons y ys => rfl

/-! ## Percent-codec lemmas -/

theorem toNat_ofNat_byte (n : Nat) (h : n < 256) : (Char.ofNat n).toNat = n := by
  unfold Char.ofNat
  rw [dif_pos (Or.inl (by omega))]
  rfl

theorem isHexD_hexDigU (n : Nat) (h : n < 16) : isHexD (hexDigU n) = true := by
  interval_cases n <;> decide

theorem hexVal_hexDigU (n : Nat) (h : n < 16) : hexVal (hexDigU n) = n := by
  interval_cases n <;> decide

theorem quote_cons (safe : List Char) (c : Char) (cs : Str) :
    quote safe (c :: cs) = quoteChar safe c ++ quote safe cs := rfl

theorem unquote_cons_ne (c : Char) (rest : Str) (hc : c ≠ '%') :
    unquote (c :: rest) = c :: unquote rest := by
  match rest with
  | [] => simp [unquote, hc]
  | [a] => simp [unquote, hc]
  | a :: b :: t => simp [unquote, hc]

theorem unquote_pct_hex (a b : Char) (rest : Str) (ha : isHexD a = true)
    (hb : isHexD b = true) :
    unquote ('%' :: a :: b :: rest) =
      Char.ofNat (16 * hexVal a + hexVal b) :: unquote rest := by
  simp [unquote, ha, hb]

theorem unquote_noPct (s : Str) (h : '%' ∉ s) : unquote s = s := by
  induction s with
  | nil => rfl
  | cons c cs ih =>
    have hc : c ≠ '%' := fun hcc => h (hcc ▸ List.mem_cons_self c cs)
    rw [unquote_cons_ne c cs hc, ih (fun hm => h (List.mem_cons_of_mem _ hm))]

theorem unquote_quote (safe : List Char) (hsafe : '%' ∉ safe) (s : Str)
    (hb : ∀ c ∈ s, c.toNat < 256) : unquote (quote safe s) = s := by
  induction s with
  | nil => rfl
  | cons c cs ih =>
    have hc256 : c.toNat < 256 := hb c (List.mem_cons_self c cs)
    have ihr := ih (fun x hx => hb x (List.mem_cons_of_mem _ hx))
    rw [quote_cons]
    unfold quoteChar
    split
    · rename_i hkeep
      have hcne : c ≠ '%' := by
        intro hceq
        subst hceq
        rcases hkeep with hk | hk
        · exact absurd hk (by decide)
        · exact hsafe hk
      rw [List.singleton_append, unquote_cons_ne c _ hcne, ihr]
    · rw [show (['%', hexDigU (c.toNat / 16), hexDigU (c.toNat % 16)] ++ quote safe cs : Str) =
        '%' :: hexDigU (c.toNat / 16) :: hexDigU (c.toNat % 16) :: quote safe cs from rfl]
      rw [unquote_pct_hex _ _ _ (isHexD_hexDigU _ (by omega)) (isHexD_hexDigU _ (by omega))]
      rw [hexVal_hexDigU _ (by omega), hexVal_hexDigU _ (by omega)]
      rw [show 16 * (c.toNat / 16) + c.toNat % 16 = c.toNat from by omega]
      rw [Char.ofNat_toNat, ihr]

theorem mem_quote (safe : List Char) (s : Str) (hb : ∀ c ∈ s, c.toNat < 256) (x : Char)
    (hx : x ∈ quote safe s) : x ∈ s ∨ x = '%' ∨ isHexD x = true := by
  induction s with
  | nil => cases hx
  | cons c cs ih =>
    have hc256 : c.toNat < 256 := hb c (List.mem_cons_self c cs)
    rw [quote_cons] at hx
    rcases List.mem_append.mp hx with h1 | h2
    · unfold quoteChar at h1
      split at h1
      · simp only [List.mem_singleton] at h1
        subst h1
        exact Or.inl (List.mem_cons_self _ _)
      · simp only [List.mem_cons, List.mem_singleton] at h1
        rcases h1 with rfl | rfl | h1
        · exact Or.inr (Or.inl rfl)
        · exact Or.inr (Or.inr (isHexD_hexDigU _ (by omega)))
        · simp only [List.not_mem_nil] at h1
          rcases h1 with rfl | h1
          · exact Or.inr (Or.inr (isHexD_hexDigU _ (by omega)))
          · cases h1
    · rcases ih (fun z hz => hb z (List.mem_cons_of_mem _ hz)) h2 with h | h
      · exact Or.inl (List.mem_cons_of_mem _ h)
      · exact Or.inr h

theorem quoteChar_ne_nil (safe : List Char) (c : Char) : quoteChar safe c ≠ [] := by
  unfold quoteChar
  split <;> simp

theorem quote_ne_nil (safe : List Char) (s : Str) (hs : s ≠ []) : quote safe s ≠ [] := by
  cases s with
  | nil => exact absurd rfl hs
  | cons c cs =>
    rw [quote_cons]
    intro hc
    rcases List.append_eq_nil.mp hc with ⟨h1, _⟩
    exact quoteChar_ne_nil safe c h1

theorem quote_head (safe : List Char) (c : Char) (cs : Str) :
    (quote safe (c :: cs)).head? = some c ∨ (quote safe (c :: cs)).head? = some '%' := by
  rw [quote_cons]
  unfold quoteChar
  split
  · exact Or.inl rfl
  · exact Or.inr rfl

/-! ## Path-level lemmas for the round-trip development -/

theorem map_id_of_eq {α : Type} (l : List α) (f : α → α) (h : ∀ x ∈ l, f x = x) :
    l.map f = l := by
  induction l with
  | nil => rfl
  | cons a t ih =>
    rw [List.map_cons, h a (List.mem_cons_self a t),
      ih (fun x hx => h x (List.mem_cons_of_mem _ hx))]

theorem splitC_eq_nilToken_iff (sep : Char) (u : Str) : splitC sep u = [[]] ↔ u = [] := by
  constructor
  · intro h
    cases u with
    | nil => rfl
    | cons a rest =>
      exfalso
      by_cases ha : a = sep
      · rw [ha, splitC_cons_sep] at h
        have h2 : splitC sep rest = [] := (List.cons.injEq _ _ _ _ ▸ h).2
        exact splitC_ne_nil sep rest h2
      · rw [splitC_cons_ne sep a rest ha] at h
        cases hr : splitC sep rest with
        | nil => exact splitC_ne_nil sep rest hr
        | cons hd t =>
          rw [hr] at h
          simp at h
  · rintro rfl
    rfl

theorem splitC_head_nil_iff (sep a : Char) (rest : Str) :
    (splitC sep (a :: rest)).head? = some [] ↔ a = sep := by
  by_cases ha : a = sep
  · subst ha
    rw [splitC_cons_sep]
    simp
  · rw [splitC_cons_ne sep a rest ha]
    cases hr : splitC sep rest with
    | nil => exact absurd hr (splitC_ne_nil sep rest)
    | cons hd t => simp [ha]

theorem segments_from_path_noPct (u : Str) (hpct : '%' ∉ u) :
    segments_from_path u = splitC '/' u := by
  unfold segments_from_path
  exact map_id_of_eq _ _ fun x hx =>
    unquote_noPct x (fun hm => hpct (mem_splitC_mem '/' '%' u x hx hm))

theorem pathLoadFresh_eval (r : Str) (hr : r ≠ []) :
    pathLoadFresh r =
      ⟨(if (segments_from_path r).head? = some [] ∧ (segments_from_path r).length > 1
          then (segments_from_path r).tail else segments_from_path r).map unquote,
        decide ((segments_from_path r).head? = some [])⟩ := by
  unfold pathLoadFresh
  rw [if_neg hr]

theorem path_from_segments_quote (segs : List Str) (h : ∀ seg ∈ segs, '%' ∉ seg) :
    path_from_segments segs = joinC '/' (segs.map (quote SAFE_SEGMENT_CHARS)) := by
  unfold path_from_segments
  rw [if_neg]
  intro hm
  rw [List.mem_flatten] at hm
  obtain ⟨l, hl, hml⟩ := hm
  exact h l hl hml

theorem pathLoadFresh_wf (u : Str) (hu : u ≠ []) (hplain : u.all plainChar = true)
    (hss : startsW ['/', '/'] u = false) :
    (∀ seg ∈ (pathLoadFresh u).segments, ∀ c ∈ seg, plainChar c = true) ∧
    (∀ seg ∈ (pathLoadFresh u).segments, '/' ∉ seg) ∧
    (pathLoadFresh u).segments ≠ [] ∧
    (∀ h0, (pathLoadFresh u).segments.head? = some h0 → h0 = [] →
      ((pathLoadFresh u).isabs = true ∧ (pathLoadFresh u).segments = [[]])) := by
  have hpct : '%' ∉ u := by
    intro hm
    have hpc := List.all_eq_true.mp hplain '%' hm
    simp [plainChar] at hpc
  have hmemfull : ∀ seg ∈ splitC '/' u, ∀ c ∈ seg, plainChar c = true := by
    intro seg hs c hc
    exact List.all_eq_true.mp hplain c (mem_splitC_mem '/' c u seg hs hc)
  have hnosep := mem_splitC_no_sep '/' u
  have hunq : ∀ X : List Str, (∀ x ∈ X, x ∈ splitC '/' u) → X.map unquote = X := by
    intro X hX
    exact map_id_of_eq _ _ fun x hx =>
      unquote_noPct x (fun hm => hpct (mem_splitC_mem '/' '%' u x (hX x hx) hm))
  rw [pathLoadFresh_eval u hu, segments_from_path_noPct u hpct]
  by_cases hcase : (splitC '/' u).head? = some [] ∧ (splitC '/' u).length > 1
  · rw [if_pos hcase]
    have htailsub : ∀ x ∈ (splitC '/' u).tail, x ∈ splitC '/' u := by
      intro x hx
      cases hfull : splitC '/' u with
      | nil => exact absurd hfull (splitC_ne_nil '/' u)
      | cons hd t =>
        rw [hfull] at hx
        exact hfull ▸ List.mem_cons_of_mem _ hx
    rw [hunq _ htailsub]
    have htne : (splitC '/' u).tail ≠ [] := by
      intro hnil
      have hlen := hcase.2
      have : (splitC '/' u).length - 1 = 0 := by rw [← List.length_tail, hnil, List.length_nil]
      omega
    refine ⟨fun seg hs => hmemfull seg (htailsub seg hs),
      fun seg hs => hnosep seg (htailsub seg hs), htne, ?_⟩
    intro h0 hh0 hh0e
    subst hh0e
    -- the head of the popped list is empty: u must be exactly "/"
    obtain ⟨a, rest, rfl⟩ : ∃ a rest, u = a :: rest := by
      cases u with
      | nil => exact absurd rfl hu
      | cons a rest => exact ⟨a, rest, rfl⟩
    have ha : a = '/' := (splitC_head_nil_iff '/' a rest).mp hcase.1
    subst ha
    rw [splitC_cons_sep] at hh0 hcase ⊢
    simp only [List.tail_cons] at hh0 ⊢
    cases rest with
    | nil =>
      refine ⟨by simp [splitC], by simp [splitC]⟩
    | cons b rest2 =>
      exfalso
      have hb : b = '/' := (splitC_head_nil_iff '/' b rest2).mp hh0
      subst hb
      simp [startsW, List.take] at hss
  · rw [if_neg hcase]
    rw [hunq _ (fun x hx => hx)]
    refine ⟨hmemfull, hnosep, splitC_ne_nil '/' u, ?_⟩
    intro h0 hh0 hh0e
    subst hh0e
    exfalso
    apply hcase
    refine ⟨hh0, ?_⟩
    rcases hlen : (splitC '/' u).length with _ | n
    · exact absurd (List.length_eq_zero.mp hlen) (splitC_ne_nil '/' u)
    · rcases n with _ | m
      · -- length 1 with head [] means splitC u = [[]] so u = []
        obtain ⟨x, hx⟩ := List.length_eq_one.mp hlen
        rw [hx] at hh0
        simp only [List.head?_cons, Option.some.injEq] at hh0
        rw [hh0] at hx
        exact absurd ((splitC_eq_nilToken_iff '/' u).mp hx) hu
      · omega

theorem pathStr_reload (segs : List Str) (ab : Bool)
    (h1 : ∀ seg ∈ segs, ∀ c ∈ seg, plainChar c = true)
    (h1b : ∀ seg ∈ segs, '/' ∉ seg)
    (hne : segs ≠ [])
    (hhead : ∀ h0, segs.head? = some h0 → h0 = [] → (ab = true ∧ segs = [[]])) :
    pathLoadFresh (pathStr ab segs) = ⟨segs, ab⟩ ∧
    startsW ['/', '/'] (pathStr ab segs) = false ∧
    ':' ∉ pathStr ab segs ∧ '?' ∉ pathStr ab segs ∧ '#' ∉ pathStr ab segs := by
  by_cases hsingle : segs = [[]]
  · subst hsingle
    have hab : ab = true := (hhead [] rfl rfl).1
    subst hab
    exact ⟨by decide, by decide, by decide, by decide, by decide⟩
  · obtain ⟨s0, rest, rfl⟩ : ∃ s0 rest, segs = s0 :: rest := by
      cases segs with
      | nil => exact absurd rfl hne
      | cons s0 rest => exact ⟨s0, rest, rfl⟩
    have hs0ne : s0 ≠ [] := fun h0 => hsingle ((hhead s0 rfl h0).2)
    have hbytes : ∀ seg ∈ s0 :: rest, ∀ c ∈ seg, c.toNat < 256 := by
      intro seg hs c hc
      have hp := h1 seg hs c hc
      simp [plainChar] at hp
      exact hp.2
    have hnp : ∀ seg ∈ s0 :: rest, '%' ∉ seg := by
      intro seg hs hm
      have hp := h1 seg hs '%' hm
      simp [plainChar] at hp
    have hQsep : ∀ x ∈ (s0 :: rest).map (quote SAFE_SEGMENT_CHARS), '/' ∉ x := by
      intro x hx hm
      rw [List.mem_map] at hx
      obtain ⟨seg, hseg, rfl⟩ := hx
      rcases mem_quote _ seg (hbytes seg hseg) '/' hm with h | h | h
      · exact h1b seg hseg h
      · exact absurd h (by decide)
      · exact absurd h (by decide)
    have hQne : (s0 :: rest).map (quote SAFE_SEGMENT_CHARS) ≠ [] := by simp
    have hJsplit : splitC '/' (joinC '/' ((s0 :: rest).map (quote SAFE_SEGMENT_CHARS))) =
        (s0 :: rest).map (quote SAFE_SEGMENT_CHARS) := splitC_joinC '/' _ hQne hQsep
    have hQunq : ((s0 :: rest).map (quote SAFE_SEGMENT_CHARS)).map unquote = s0 :: rest := by
      rw [List.map_map]
      exact map_id_of_eq _ _ fun seg hs => unquote_quote _ (by decide) seg (hbytes seg hs)
    have hfin : (s0 :: rest).map unquote = s0 :: rest :=
      map_id_of_eq _ _ fun x hx => unquote_noPct x (hnp x hx)
    have hJchar : ∀ y : Char, isHexD y = false → y ≠ '/' → y ≠ '%' →
        (∀ seg ∈ s0 :: rest, y ∉ seg) →
        y ∉ joinC '/' ((s0 :: rest).map (quote SAFE_SEGMENT_CHARS)) := by
      intro y hy1 hy2 hy3 hy4 hm
      rcases mem_joinC '/' _ y hm with h | ⟨x, hx, hyx⟩
      · exact hy2 h
      · rw [List.mem_map] at hx
        obtain ⟨seg, hseg, rfl⟩ := hx
        rcases mem_quote _ seg (hbytes seg hseg) y hyx with h | h | h
        · exact hy4 seg hseg h
        · exact hy3 h
        · rw [hy1] at h
          cases h
    have hcolJ : ':' ∉ joinC '/' ((s0 :: rest).map (quote SAFE_SEGMENT_CHARS)) := by
      refine hJchar ':' (by decide) (by decide) (by decide) ?_
      intro seg hseg hm
      have hp := h1 seg hseg ':' hm
      simp [plainChar] at hp
    have hqmJ : '?' ∉ joinC '/' ((s0 :: rest).map (quote SAFE_SEGMENT_CHARS)) := by
      refine hJchar '?' (by decide) (by decide) (by decide) ?_
      intro seg hseg hm
      have hp := h1 seg hseg '?' hm
      simp [plainChar] at hp
    have hhashJ : '#' ∉ joinC '/' ((s0 :: rest).map (quote SAFE_SEGMENT_CHARS)) := by
      refine hJchar '#' (by decide) (by decide) (by decide) ?_
      intro seg hseg hm
      have hp := h1 seg hseg '#' hm
      simp [plainChar] at hp
    obtain ⟨d, J2, hJ, hdne⟩ : ∃ d J2,
        joinC '/' ((s0 :: rest).map (quote SAFE_SEGMENT_CHARS)) = d :: J2 ∧ d ≠ '/' := by
      obtain ⟨c0, s0t, rfl⟩ : ∃ c0 s0t, s0 = c0 :: s0t := by
        cases s0 with
        | nil => exact absurd rfl hs0ne
        | cons c0 s0t => exact ⟨c0, s0t, rfl⟩
      have hqne : quote SAFE_SEGMENT_CHARS (c0 :: s0t) ≠ [] := quote_ne_nil _ _ (by simp)
      have hh : (joinC '/' (((c0 :: s0t) :: rest).map (quote SAFE_SEGMENT_CHARS))).head? =
          (quote SAFE_SEGMENT_CHARS (c0 :: s0t)).head? := by
        rw [List.map_cons]
        exact joinC_cons_head '/' _ _ hqne
      have hc0 : c0 ≠ '/' := by
        intro hc
        exact h1b (c0 :: s0t) (List.mem_cons_self _ _) (hc ▸ List.mem_cons_self c0 s0t)
      cases hJc : joinC '/' (((c0 :: s0t) :: rest).map (quote SAFE_SEGMENT_CHARS)) with
      | nil =>
        rw [hJc] at hh
        rcases quote_head SAFE_SEGMENT_CHARS c0 s0t with hq | hq <;> rw [hq] at hh <;> cases hh
      | cons d J2 =>
        rw [hJc] at hh
        simp only [List.head?_cons] at hh
        rcases quote_head SAFE_SEGMENT_CHARS c0 s0t with hq | hq <;> rw [hq] at hh
        · exact ⟨d, J2, rfl, (Option.some.inj hh) ▸ hc0⟩
        · refine ⟨d, J2, rfl, ?_⟩
          rw [Option.some.inj hh]
          decide
    cases ab with
    | true =>
      have hr : pathStr true (s0 :: rest) =
          '/' :: joinC '/' ((s0 :: rest).map (quote SAFE_SEGMENT_CHARS)) := by
        simp only [pathStr]
        rw [if_pos trivial, if_neg (by simp)]
        rw [path_from_segments_quote _ (by
          intro seg hs
          rcases List.mem_cons.mp hs with rfl | hs2
          · simp
          · exact hnp seg hs2)]
        rw [List.map_cons]
        rw [show quote SAFE_SEGMENT_CHARS [] = [] from rfl]
        rw [show joinC '/' ([] :: (s0 :: rest).map (quote SAFE_SEGMENT_CHARS)) =
          [] ++ '/' :: joinC '/' ((s0 :: rest).map (quote SAFE_SEGMENT_CHARS)) from rfl]
        rw [List.nil_append]
      rw [hr]
      refine ⟨?_, ?_, ?_, ?_, ?_⟩
      · rw [pathLoadFresh_eval _ (by simp)]
        have hsfp : segments_from_path
            ('/' :: joinC '/' ((s0 :: rest).map (quote SAFE_SEGMENT_CHARS))) =
            [] :: s0 :: rest := by
          unfold segments_from_path
          rw [splitC_cons_sep, hJsplit, List.map_cons, hQunq]
          rfl
        rw [hsfp]
        rw [if_pos ⟨rfl, by simp⟩]
        simp only [List.tail_cons]
        rw [hfin]
        simp
      · rw [hJ]
        simp [startsW, List.take]
        intro hc
        exact absurd hc hdne
      · intro hm
        rcases List.mem_cons.mp hm with h | h
        · exact absurd h (by decide)
        · exact hcolJ h
      · intro hm
        rcases List.mem_cons.mp hm with h | h
        · exact absurd h (by decide)
        · exact hqmJ h
      · intro hm
        rcases List.mem_cons.mp hm with h | h
        · exact absurd h (by decide)
        · exact hhashJ h
    | false =>
      have hr : pathStr false (s0 :: rest) =
          joinC '/' ((s0 :: rest).map (quote SAFE_SEGMENT_CHARS)) := by
        simp only [pathStr]
        rw [if_neg (by simp)]
        rw [path_from_segments_quote _ hnp]
      rw [hr]
      refine ⟨?_, ?_, hcolJ, hqmJ, hhashJ⟩
      · rw [pathLoadFresh_eval _ (by rw [hJ]; simp)]
        have hsfp : segments_from_path
            (joinC '/' ((s0 :: rest).map (quote SAFE_SEGMENT_CHARS))) = s0 :: rest := by
          unfold segments_from_path
          rw [hJsplit, hQunq]
        rw [hsfp]
        rw [if_neg (fun hc => hs0ne (Option.some.inj hc.1))]
        rw [hfin]
        simp [hs0ne]
      · rw [hJ]
        simp [startsW, List.take]
        intro hc
        exact absurd hc hdne

theorem containsSub_head_mem (c : Char) (p : Str) (s : Str)
    (h : containsSub (c :: p) s = true) : c ∈ s := by
  induction s with
  | nil => simp [containsSub] at h
  | cons a rest ih =>
    unfold containsSub at h
    rcases Bool.or_eq_true_iff.mp h with h1 | h2
    · unfold startsW at h1
      simp only [decide_eq_true_eq, List.length_cons, List.take_succ_cons] at h1
      have ha : a = c := (List.cons.injEq _ _ _ _ ▸ h1).1
      exact ha ▸ List.mem_cons_self a rest
    · exact List.mem_cons_of_mem _ (ih h2)

theorem urlsplit_pathOnly (u : Str) (hcol : ':' ∉ u) (hq : '?' ∉ u) (hh : '#' ∉ u)
    (hss : startsW ['/', '/'] u = false) : urlsplit u = .ok ⟨[], [], u, [], []⟩ := by
  have hnoc : containsSub [':', '/', '/'] u = false := by
    by_contra hc
    rw [Bool.not_eq_false] at hc
    exact hcol (containsSub_head_mem ':' _ u hc)
  unfold urlsplit
  rw [if_pos (by simp [hnoc])]
  unfold pyUrlsplit
  rw [show findIdxC ':' u = none from (findIdxC_eq_none_iff ':' u).mpr hcol]
  simp only []
  unfold genericSplit
  rw [hss]
  simp only [Bool.false_eq_true, if_false]
  rw [if_neg (by decide)]
  rw [if_neg (show ¬(([] : Str) ∈ usesFragment ∧ '#' ∈ u) from fun hc => hh hc.2)]
  rw [if_neg (show ¬(([] : Str) ∈ usesQuery ∧ '?' ∈ (u, ([] : Str)).1) from fun hc => hq hc.2)]

theorem furlLoad_pathOnly (u : Str) (hcol : ':' ∉ u) (hq : '?' ∉ u) (hh : '#' ∉ u)
    (hss : startsW ['/', '/'] u = false) :
    furlLoad u = .ok (pathOnlySt (pathLoadFresh u)) := by
  unfold furlLoad
  rw [urlsplit_pathOnly u hcol hq hh hss]
  simp only []
  rw [show netlocSet (some []) freshState = .ok freshState from by decide]
  rfl

theorem furlStr_pathOnly (p : PathSt)
    (hss : startsW ['/', '/'] (pathStr p.isabs p.segments) = false) :
    furlStr (pathOnlySt p) = pathStr p.isabs p.segments := by
  have hread : isabsoluteRead (pathOnlySt p) = p.isabs := by
    unfold isabsoluteRead forceAbsolute
    rw [show netlocTruthy (pathOnlySt p) = false from rfl,
      show (pathOnlySt p).path = p from rfl]
    simp
  unfold furlStr
  rw [hread]
  rw [show netlocGet (pathOnlySt p) = none from rfl]
  rw [show queryStr (pathOnlySt p).query = [] from rfl]
  rw [show fragStr (pathOnlySt p).fragment = [] from rfl]
  rw [show (pathOnlySt p).path = p from rfl]
  rw [show (pathOnlySt p).scheme = none from rfl]
  unfold urlunsplit
  simp [hss]

/-! ## Claim C1: round-trip idempotence -/

/-- C1 counterexample.  Re-parsing the rendered form is not idempotent:
loading `/%252541` stores the doubly-decoded segment `%41`, which still
holds a `%`, so rendering skips quoting and yields `/%41`; re-loading
that decodes once more to `A` and renders `/A ≠ /%41`. -/
theorem c1_counterexample :
    loadStr ("/%252541".toList) = .ok ("/%41".toList) ∧
    loadStr ("/%41".toList) = .ok ("/A".toList) ∧
    ("/%41".toList : Str) ≠ "/A".toList := by decide

/-- C1 as amended.  Re-parsing the rendered form is idempotent for
path-only URLs free of percent-escapes: for every URL string without
`%`, `:`, `?` or `#` (8-bit bytes) and not beginning with `//`,
`render(load(u))` yields a string `r` with
`render(load(r)) = r`. -/
theorem c1_roundtrip_amended (u : Str) (hplain : u.all plainChar = true)
    (hss : startsW ['/', '/'] u = false) :
    ∃ r : Str, loadStr u = .ok r ∧ loadStr r = .ok r := by
  by_cases hu : u = []
  · subst hu
    exact ⟨[], by decide, by decide⟩
  · have hchar : ∀ y : Char, plainChar y = false → y ∉ u := by
      intro y hy hm
      have hall := List.all_eq_true.mp hplain y hm
      rw [hy] at hall
      cases hall
    have hcol : ':' ∉ u := hchar ':' (by decide)
    have hq : '?' ∉ u := hchar '?' (by decide)
    have hh : '#' ∉ u := hchar '#' (by decide)
    have hload := furlLoad_pathOnly u hcol hq hh hss
    have hwf := pathLoadFresh_wf u hu hplain hss
    have hrel := pathStr_reload (pathLoadFresh u).segments (pathLoadFresh u).isabs
      hwf.1 hwf.2.1 hwf.2.2.1 hwf.2.2.2
    refine ⟨pathStr (pathLoadFresh u).isabs (pathLoadFresh u).segments, ?_, ?_⟩
    · unfold loadStr
      rw [hload]
      simp only []
      rw [furlStr_pathOnly _ hrel.2.1]
    · have hload2 := furlLoad_pathOnly
        (pathStr (pathLoadFresh u).isabs (pathLoadFresh u).segments)
        hrel.2.2.1 hrel.2.2.2.1 hrel.2.2.2.2 hrel.2.1
      unfold loadStr
      rw [hload2]
      simp only []
      rw [show pathLoadFresh (pathStr (pathLoadFresh u).isabs (pathLoadFresh u).segments) =
        pathLoadFresh u from hrel.1]
      rw [furlStr_pathOnly _ hrel.2.1]

/-- C1 witness.  The path-only URL `/a/b c/` satisfies the amended
theorem's hypotheses; its rendered form percent-encodes the space and
then reloads and re-renders to itself. -/
theorem c1_witness :
    ("/a/b c/".toList).all plainChar = true ∧
    startsW ['/', '/'] ("/a/b c/".toList) = false ∧
    ∃ r : Str, loadStr ("/a/b c/".toList) = .ok r ∧ loadStr r = .ok r :=
  ⟨by decide, by decide, c1_roundtrip_amended ("/a/b c/".toList) (by decide) (by decide)⟩

end Furl
